import Mathlib

/-!
Verification of the `remotelib` path library: a shallow embedding of the
address grammar (`split`, `Remote.from_str`), of the `Path` value type and its
pure path operations (backed by a model of `pathlib.PurePosixPath`), of the
error-translation wrapper (`_wrap_exception`), and of the remote command
output decoding used by `stat` and `exists`.
-/

namespace Remotelib

/-- Python strings are modelled as lists of characters. -/
abbrev Str := List Char

/-- Whitespace stripped by Python `str.strip()` / accepted around `int()` input. -/
def isWs (c : Char) : Bool :=
  c == ' ' || c == '\t' || c == '\n' || c == '\r' || c == '\x0b' || c == '\x0c'

/-- Decimal digit test. -/
def isDig (c : Char) : Bool := 48 ≤ c.toNat && c.toNat ≤ 57

/-- `leadsWith pat s`: Python `s.startswith(pat)`. -/
def leadsWith : Str → Str → Bool
  | [], _ => true
  | _ :: _, [] => false
  | a :: as, b :: bs => a == b && leadsWith as bs

/-- `containsSub pat s`: Python `pat in s` (substring containment). -/
def containsSub (pat : Str) : Str → Bool
  | [] => pat.isEmpty
  | x :: xs => leadsWith pat (x :: xs) || containsSub pat xs

/-- `idxC c s`: Python `s.index(c)` for a character present in `s`
(returns `s.length` when absent; the call sites guard for presence). -/
def idxC (c : Char) : Str → Nat
  | [] => 0
  | x :: xs => if x = c then 0 else idxC c xs + 1

/-- Python `s.split(pat, maxsplit=1)` restricted to the case where `pat`
occurs: the pieces before and after the first occurrence. -/
def splitOnce (pat : Str) : Str → Option (Str × Str)
  | [] => none
  | x :: xs =>
    if leadsWith pat (x :: xs) then some ([], (x :: xs).drop pat.length)
    else
      match splitOnce pat xs with
      | some (a, b) => some (x :: a, b)
      | none => none

/-- Split on a character predicate, keeping empty pieces
(Python `s.split('/')` when the predicate tests for `'/'`). -/
def splitP (pr : Char → Bool) : Str → List Str
  | [] => [[]]
  | x :: xs =>
    if pr x then [] :: splitP pr xs
    else
      match splitP pr xs with
      | [] => [[x]]
      | h :: t => (x :: h) :: t

/-- Number of leading occurrences of `c`. -/
def countLead (c : Char) : Str → Nat
  | [] => 0
  | x :: xs => if x = c then countLead c xs + 1 else 0

/-- Value of a string of decimal digits. -/
def digitsToNat (s : Str) : Nat := s.foldl (fun acc c => acc * 10 + (c.toNat - 48)) 0

/-- The decimal digit character for `d < 10`. -/
def digCh (d : Nat) : Char :=
  match d with
  | 0 => '0' | 1 => '1' | 2 => '2' | 3 => '3' | 4 => '4'
  | 5 => '5' | 6 => '6' | 7 => '7' | 8 => '8' | _ => '9'

/-- Big-endian decimal digits of `n`, prepended to `acc`. -/
def natToCharsAux : Nat → Str → Str
  | 0, acc => acc
  | n + 1, acc => natToCharsAux ((n + 1) / 10) (digCh ((n + 1) % 10) :: acc)
decreasing_by exact Nat.div_lt_self (Nat.succ_pos n) (by norm_num)

/-- Decimal rendering of a natural number (Python `str(n)`). -/
def natRender (n : Nat) : Str := if n = 0 then ['0'] else natToCharsAux n []

/-- Decimal rendering of an integer (Python `str(i)` / f-string interpolation). -/
def intRender (i : Int) : Str := if i < 0 then '-' :: natRender i.natAbs else natRender i.toNat

/-- Drop leading whitespace. -/
def dropWsL : Str → Str
  | [] => []
  | x :: xs => if isWs x then dropWsL xs else x :: xs

/-- Python `s.strip()`. -/
def stripWs (s : Str) : Str := dropWsL (dropWsL s.reverse).reverse

/-- Python `int(s)` in base 10: strip whitespace, take an optional sign, and
require at least one decimal digit (underscore digit separators are not
modelled). -/
def pyInt (s : Str) : Option Int :=
  match stripWs s with
  | [] => none
  | c :: ds =>
    if c = '-' then
      if ds ≠ [] ∧ ds.all isDig then some (-(digitsToNat ds : Int)) else none
    else if c = '+' then
      if ds ≠ [] ∧ ds.all isDig then some ((digitsToNat ds : Int)) else none
    else
      if (c :: ds).all isDig then some ((digitsToNat (c :: ds) : Int)) else none

/-- Value of a single hexadecimal digit character. -/
def hexVal (c : Char) : Option Nat :=
  if 48 ≤ c.toNat ∧ c.toNat ≤ 57 then some (c.toNat - 48)
  else if 97 ≤ c.toNat ∧ c.toNat ≤ 102 then some (c.toNat - 87)
  else if 65 ≤ c.toNat ∧ c.toNat ≤ 70 then some (c.toNat - 55)
  else none

/-- Accumulating evaluation of hexadecimal digits. -/
def hexToNatAux : Str → Nat → Option Nat
  | [], acc => some acc
  | c :: cs, acc =>
    match hexVal c with
    | some d => hexToNatAux cs (acc * 16 + d)
    | none => none

/-- Value of a non-empty string of hexadecimal digits. -/
def hexDigitsToNat : Str → Option Nat
  | [] => none
  | s => hexToNatAux s 0

/-- Python `int(s, 16)` (optional sign and `0x`/`0X` prefix). -/
def pyIntHex (s : Str) : Option Int :=
  let f : Str → Option Int := fun u =>
    let u' := if leadsWith ['0', 'x'] u || leadsWith ['0', 'X'] u then u.drop 2 else u
    (hexDigitsToNat u').map (fun n => (n : Int))
  match stripWs s with
  | '-' :: ds => (f ds).map (fun n => -n)
  | '+' :: ds => f ds
  | ds => f ds

/-- Python `s.split()` (split on whitespace runs, dropping empty pieces). -/
def wsSplit (s : Str) : List Str := (splitP isWs s).filter (fun p => !p.isEmpty)

/-- Sequence an option-producing function over a list (fails if any element fails). -/
def mapOption {α β : Type} (f : α → Option β) : List α → Option (List β)
  | [] => some []
  | x :: xs =>
    match f x, mapOption f xs with
    | some y, some ys => some (y :: ys)
    | _, _ => none

/-! ## Model of `pathlib.PurePosixPath`

The `pathlib.Path` objects used by `_file.py` are, for the pure operations,
POSIX pure paths: an optional root (`0` = relative, `1` = `/`, `2` = the POSIX
special double-slash root `//`) together with the non-empty path segments,
with empty and `'.'` segments dropped at construction. -/

structure LocalPath where
  root : Nat
  names : List Str
deriving DecidableEq

namespace LocalPath

/-- Constructing a `PurePosixPath` from a string. -/
def parse (s : Str) : LocalPath :=
  let lead := countLead '/' s
  { root := if lead = 2 then 2 else min lead 1
    names := (splitP (fun c => c == '/') s).filter (fun p => !p.isEmpty && p != ['.']) }

/-- The textual root. -/
def rootStr (r : Nat) : Str := if r = 2 then ['/', '/'] else if r = 1 then ['/'] else []

/-- Join path segments with `'/'` separators. -/
def joinSlash : List Str → Str
  | [] => []
  | n :: ns =>
    match ns with
    | [] => n
    | _ :: _ => n ++ '/' :: joinSlash ns

/-- `str(p)` for a `PurePosixPath`. -/
def render (p : LocalPath) : Str :=
  if p.root = 0 ∧ p.names = [] then ['.']
  else rootStr p.root ++ joinSlash p.names

/-- Well-formedness maintained by parsing and all operations. -/
def wf (p : LocalPath) : Prop :=
  p.root ≤ 2 ∧ ∀ nm ∈ p.names, nm ≠ [] ∧ nm ≠ ['.'] ∧ '/' ∉ nm

instance (p : LocalPath) : Decidable (wf p) := by unfold wf; infer_instance

/-- `PurePosixPath.name`. -/
def name (p : LocalPath) : Str := (p.names.getLast?).getD []

/-- `PurePosixPath.parent`. -/
def parent (p : LocalPath) : LocalPath :=
  if p.names = [] then p else ⟨p.root, p.names.dropLast⟩

/-- `PurePosixPath.parts` (the root, when present, is the first part). -/
def partsList (p : LocalPath) : List Str :=
  (if p.root = 0 then [] else [rootStr p.root]) ++ p.names

/-- `PurePosixPath.is_absolute()`. -/
def is_absolute (p : LocalPath) : Bool := p.root != 0

/-- Helper for Python `str.rfind`. -/
def rfindAux (c : Char) : Str → Nat → Option Nat → Option Nat
  | [], _, acc => acc
  | x :: xs, i, acc => rfindAux c xs (i + 1) (if x = c then some i else acc)

/-- Python `s.rfind(c)` as an option (index of last occurrence). -/
def rfindC (c : Char) (s : Str) : Option Nat := rfindAux c s 0 none

/-- `PurePosixPath.suffix`: the last dot-suffix of the final component,
when it is both proper and non-initial. -/
def suffix (p : LocalPath) : Str :=
  let nm := name p
  match rfindC '.' nm with
  | some i => if 0 < i ∧ i + 1 < nm.length then nm.drop i else []
  | none => []

/-- `PurePosixPath.stem`. -/
def stem (p : LocalPath) : Str :=
  let nm := name p
  match rfindC '.' nm with
  | some i => if 0 < i ∧ i + 1 < nm.length then nm.take i else nm
  | none => nm

/-- `PurePosixPath.with_name` (`none` models the `ValueError` raises). -/
def with_name (p : LocalPath) (n : Str) : Option LocalPath :=
  if name p = [] then none
  else if n = [] ∨ '/' ∈ n ∨ n = ['.'] then none
  else some ⟨p.root, p.names.dropLast ++ [n]⟩

/-- `PurePosixPath.with_stem`. -/
def with_stem (p : LocalPath) (st : Str) : Option LocalPath :=
  with_name p (st ++ suffix p)

/-- `PurePosixPath.with_suffix` (`none` models the `ValueError` raises). -/
def with_suffix (p : LocalPath) (sfx : Str) : Option LocalPath :=
  if '/' ∈ sfx then none
  else if (sfx ≠ [] ∧ leadsWith ['.'] sfx = false) ∨ sfx = ['.'] then none
  else
    let nm := name p
    if nm = [] then none
    else
      let old := suffix p
      let newName := if old = [] then nm ++ sfx else nm.take (nm.length - old.length) ++ sfx
      some ⟨p.root, p.names.dropLast ++ [newName]⟩

/-- `PurePosixPath.relative_to` (`none` models the `ValueError` raise):
the other pathzs parts must be a prefix of this pathzs parts, and an
absolute path is never relative to an empty (`.`) path. -/
def relative_to (p o : LocalPath) : Option LocalPath :=
  let pp := partsList p
  let op := partsList o
  if op = [] then (if p.root ≠ 0 then none else some p)
  else if pp.take op.length = op then some ⟨0, pp.drop op.length⟩
  else none

/-- `PurePosixPath.is_relative_to`. -/
def is_relative_to (p o : LocalPath) : Bool := (relative_to p o).isSome

/-- `PurePosixPath.__truediv__`: an absolute right operand discards the left. -/
def join (p q : LocalPath) : LocalPath :=
  if q.root ≠ 0 then q else ⟨p.root, p.names ++ q.names⟩

end LocalPath

/-! ## Hosts (`_ssh.py`) -/

/-- The `Remote` dataclass: an SSH-able machine. -/
structure Remote where
  hostname : Str
  user : Str
  port : Int
deriving DecidableEq

/-- The `Host` protocol with its two implementations, `Local` and `Remote`. -/
inductive Host where
  | localhost
  | remote (r : Remote)
deriving DecidableEq

/-- `Host.is_remote`. -/
def Host.is_remote : Host → Bool
  | .localhost => false
  | .remote _ => true

section DefaultUser

-- `du` models `_DEFAULT_USER = os.getlogin()`: a value taken from the
-- environment, kept abstract.
variable (du : Str)

/-- The user/hostname phase of `Remote.from_str`: after the optional port has
been split off, split off the optional `user@`. -/
def from_str_user (port : Int) (h1 : Str) : Option Remote :=
  if '@' ∈ h1 then
    if h1.count '@' = 1 then
      match splitOnce ['@'] h1 with
      | some (u, h2) => some ⟨h2, u, port⟩
      | none => none
    else none
  else some ⟨h1, du, port⟩

/-- `Remote.from_str`: parse `[user@]hostname[:port]`.  Assertion failures
(more than one `:` or `@`) and invalid port integers are modelled as `none`. -/
def from_str (host : Str) : Option Remote :=
  if ':' ∈ host then
    if host.count ':' = 1 then
      (splitOnce [':'] host).bind
        (fun hp => (pyInt hp.2).bind (fun p => from_str_user du p hp.1))
    else none
  else from_str_user du 22 host

/-- `Remote.__str__`: the hostname, with the user prepended when it is not
the default and the port appended when it is not 22. -/
def renderRemote (r : Remote) : Str :=
  let d := r.hostname
  let d1 := if r.user ≠ du then r.user ++ '@' :: d else d
  if r.port ≠ 22 then d1 ++ ':' :: intRender r.port else d1

/-- `Host.prefix`: what is prepended to a bare path in the combined string
form (empty for the local host, `str(remote) + ":"` for a remote). -/
def prefixStr : Host → Str
  | .localhost => []
  | .remote r => renderRemote du r ++ [':']

/-- `split` from `_file.py`: split a combined path string into a host and a
bare `pathlib` path.  `none` models the exceptions escaping from
`Remote.from_str`. -/
def split (path : Str) : Option (Host × LocalPath) :=
  if containsSub [':', '/'] path = true ∧ idxC ':' path < idxC '/' path then
    (splitOnce [':', '/'] path).bind (fun ar =>
      (from_str du ar.1).map (fun r => (Host.remote r, LocalPath.parse ('/' :: ar.2))))
  else if containsSub [':', '~'] path = true ∧ idxC ':' path < idxC '~' path then
    (splitOnce [':', '~'] path).bind (fun ar =>
      (from_str du ar.1).map (fun r => (Host.remote r, LocalPath.parse ('~' :: ar.2))))
  else some (Host.localhost, LocalPath.parse path)

/-- A remote host whose printable fields cannot disturb re-parsing: the
hostname is free of `':'`, `'@'`, `'/'` and `'~'`, and so is the user unless
it is the default (in which case it is never printed). -/
def Remote.wfFull (r : Remote) : Prop :=
  (∀ c ∈ r.hostname, c ≠ ':' ∧ c ≠ '@' ∧ c ≠ '/' ∧ c ≠ '~') ∧
    ((∀ c ∈ r.user, c ≠ ':' ∧ c ≠ '@' ∧ c ≠ '/' ∧ c ≠ '~') ∨ r.user = du)

/-- `Host.wfFull`: the local host, or a remote host with re-parse-safe fields. -/
def Host.wfFull : Host → Prop
  | .localhost => True
  | .remote r => Remote.wfFull du r

instance (r : Remote) : Decidable (Remote.wfFull du r) := by
  unfold Remote.wfFull; infer_instance

instance (h : Host) : Decidable (Host.wfFull du h) :=
  match h with
  | .localhost => isTrue trivial
  | .remote r => inferInstanceAs (Decidable (Remote.wfFull du r))

/-! ## The `Path` abstraction (`_file.py`) -/

end DefaultUser

/-- The bare-path string contains neither of the ambiguous sequences `:/`
and `:~` that could be mistaken for a host boundary. -/
def unamb (s : Str) : Prop :=
  containsSub [':', '/'] s = false ∧ containsSub [':', '~'] s = false

instance (s : Str) : Decidable (unamb s) := by unfold unamb; infer_instance

/-- A bare path whose rendered string can survive having the given host's
prefix re-attached: any bare path for the local host, and a bare path whose
string form begins with `/` or `~` for a remote host. -/
def startOK (h : Host) (lp : LocalPath) : Prop :=
  h = Host.localhost ∨ lp.root ≠ 0 ∨
    (lp.root = 0 ∧ lp.names.head?.bind (fun n => n.head?) = some '~')

instance (h : Host) (lp : LocalPath) : Decidable (startOK h lp) := by
  unfold startOK; infer_instance

/-- Modelled from the spec's words (§3 disambiguation rule): a colon appears
strictly before the first `/` or the first `~` of the string.  Used to compare
the spec's stated grammar with the implemented one. -/
def specColonBeforeMarker (s : Str) : Prop :=
  (':' ∈ s ∧ '/' ∈ s ∧ idxC ':' s < idxC '/' s) ∨
    (':' ∈ s ∧ '~' ∈ s ∧ idxC ':' s < idxC '~' s)

instance (s : Str) : Decidable (specColonBeforeMarker s) := by
  unfold specColonBeforeMarker; infer_instance

/-- The condition under which the implementation treats a string as remote:
a literal `:/` whose first colon precedes the first slash or, failing that,
a literal `:~` whose first colon precedes the first tilde. -/
def codeRemoteCond (s : Str) : Prop :=
  (containsSub [':', '/'] s = true ∧ idxC ':' s < idxC '/' s) ∨
    (¬(containsSub [':', '/'] s = true ∧ idxC ':' s < idxC '/' s) ∧
      containsSub [':', '~'] s = true ∧ idxC ':' s < idxC '~' s)

instance (s : Str) : Decidable (codeRemoteCond s) := by
  unfold codeRemoteCond; infer_instance

/-- `remotelib.Path`: an immutable pairing of a host and a bare path. -/
structure Path where
  host : Host
  path : LocalPath
deriving DecidableEq

/-- The error kinds distinguished by the pure `Path` operations.  In Python
every one of these surfaces as a `ValueError`; they are distinguished here by
raise site. -/
inductive PErr where
  /-- `ValueError("hosts must match")` in `relative_to`. -/
  | hostsMustMatch
  /-- `ValueError("Hosts must be the same when joining paths")` in `__truediv__`. -/
  | joinHostMismatch
  /-- The `pathlib` `ValueError` for `relative_to` on unrelated paths. -/
  | notInSubpath
  /-- Any other `ValueError` (invalid name/suffix, failed re-parse). -/
  | invalidValue
deriving DecidableEq

/-- The acceptable argument types of the `Path` constructor
(`str | Path | pathlib.Path`). -/
inductive PathLike where
  | ofStr (s : Str)
  | ofLocal (lp : LocalPath)
  | ofPath (p : Path)

section PathOps

variable (du : Str)

/-- `Path.__init__` on a string argument. -/
def Path.ofString (s : Str) : Option Path :=
  (split du s).map (fun hb => ⟨hb.1, hb.2⟩)

/-- `Path.__init__` on any accepted argument. -/
def Path.ofArg : PathLike → Option Path
  | .ofStr s => Path.ofString du s
  | .ofLocal lp => some ⟨.localhost, lp⟩
  | .ofPath p => some p

/-- `Path.__str__`: host prefix concatenated with the bare path string. -/
def Path.str (p : Path) : Str := prefixStr du p.host ++ LocalPath.render p.path

/-- `Path._add_remote`: prepend the host prefix to a bare path string and
re-parse the result through the `Path` constructor. -/
def Path.add_remote (p : Path) (lp : LocalPath) : Option Path :=
  Path.ofString du (prefixStr du p.host ++ LocalPath.render lp)

/-- `Path.parent`. -/
def Path.parent (p : Path) : Option Path :=
  Path.add_remote du p (LocalPath.parent p.path)

/-- `Path.with_name`. -/
def Path.with_name (p : Path) (n : Str) : Option Path :=
  (LocalPath.with_name p.path n).bind (Path.add_remote du p)

/-- `Path.with_stem`. -/
def Path.with_stem (p : Path) (st : Str) : Option Path :=
  (LocalPath.with_stem p.path st).bind (Path.add_remote du p)

/-- `Path.with_suffix`. -/
def Path.with_suffix (p : Path) (sfx : Str) : Option Path :=
  (LocalPath.with_suffix p.path sfx).bind (Path.add_remote du p)

/-- `Path.relative_to` on a `Path` argument. -/
def Path.relative_to (p q : Path) : Except PErr Path :=
  if p.host ≠ q.host then .error .hostsMustMatch
  else
    match LocalPath.relative_to p.path q.path with
    | none => .error .notInSubpath
    | some r =>
      match Path.add_remote du p r with
      | some res => .ok res
      | none => .error .invalidValue

/-- `Path.is_relative_to` on a `Path` argument: `False` on host mismatch,
never an error. -/
def Path.is_relative_to (p q : Path) : Bool :=
  if p.host = q.host then LocalPath.is_relative_to p.path q.path else false

/-- `Path.__truediv__`: the host-equality check applies only when the right
operand is itself a `Path`; then the bare paths are joined and the host
prefix re-attached. -/
def Path.truediv (p : Path) (key : PathLike) : Except PErr Path :=
  match key with
  | .ofPath q =>
    if p.host ≠ q.host then .error .joinHostMismatch
    else
      match Path.add_remote du p (LocalPath.join p.path q.path) with
      | some res => .ok res
      | none => .error .invalidValue
  | k =>
    match Path.ofArg du k with
    | none => .error .invalidValue
    | some q =>
      match Path.add_remote du p (LocalPath.join p.path q.path) with
      | some res => .ok res
      | none => .error .invalidValue

end PathOps

/-! ## Error translation (`_wrap_exception`) -/

/-- The exception classes that classification can produce. -/
inductive ExcKind where
  | fileNotFoundError
  | permissionError
  | fileExistsError
  /-- A caller-supplied exception class, identified by name. -/
  | other (name : Str)
deriving DecidableEq

/-- `_DEFAULT_BASH_EXCEPTIONS`, in declaration order. -/
def DEFAULT_BASH_EXCEPTIONS : List (Str × ExcKind) :=
  [("No such file or directory".data, .fileNotFoundError),
   ("Permission denied".data, .permissionError),
   ("File exists".data, .fileExistsError)]

/-- The `_NewException` argument: `None`, a single exception class, or a
mapping from stderr patterns to classes. -/
inductive NewException where
  | noneE
  | single (k : ExcKind)
  | table (m : List (Str × ExcKind))

/-- First-match lookup in an association list (Python dict access). -/
def lookupA (m : List (Str × ExcKind)) (k : Str) : Option ExcKind :=
  (m.find? (fun kv => kv.1 == k)).map (fun kv => kv.2)

/-- Python `d1 | d2` on dicts: the keys of `d1` in order (values overridden
by `d2` where present), then the keys only in `d2`, in order. -/
def dictMerge (d1 d2 : List (Str × ExcKind)) : List (Str × ExcKind) :=
  d1.map (fun kv => (kv.1, (lookupA d2 kv.1).getD kv.2))
    ++ d2.filter (fun kv => (lookupA d1 kv.1).isNone)

/-- What `_wrap_exception` raises for a failed command. -/
inductive Raised where
  /-- A classified exception built from the stderr text. -/
  | classified (k : ExcKind) (stderr : Str)
  /-- The original `subprocess.CalledProcessError`, unclassified. -/
  | calledProcessError (returncode : Int) (stderr : Str)
deriving DecidableEq

/-- The substring-matching loop of `_wrap_exception`: every table entry is
tried in order and each match overwrites the exception, so the last matching
entry wins; if none matches the original process error is re-raised. -/
def applyTable (t : List (Str × ExcKind)) (returncode : Int) (stderr : Str) : Raised :=
  t.foldl
    (fun acc kv => if containsSub kv.1 stderr then .classified kv.2 stderr else acc)
    (.calledProcessError returncode stderr)

/-- `_wrap_exception` behaviour on a `CalledProcessError` with the given
return code and stderr. -/
def wrap_exception (exc : NewException) (returncode : Int) (stderr : Str) : Raised :=
  match exc with
  | .single k => .classified k stderr
  | .noneE => applyTable (dictMerge DEFAULT_BASH_EXCEPTIONS []) returncode stderr
  | .table m => applyTable (dictMerge DEFAULT_BASH_EXCEPTIONS m) returncode stderr

/-! ## Remote command output decoding -/

/-- `os.stat_result` as exposed by `Path.stat` (the ten named leading fields). -/
structure StatResult where
  st_mode : Int
  st_ino : Int
  st_dev : Int
  st_nlink : Int
  st_uid : Int
  st_gid : Int
  st_size : Int
  st_atime : Int
  st_mtime : Int
  st_ctime : Int
deriving DecidableEq

/-- Assemble an `os.stat_result` from the decoded mode and the remaining
decoded integer fields, in order: inode, device, nlink, uid, gid, size,
atime, mtime, ctime (`os.stat_result` needs at least ten values). -/
def statOfVals (mode : Int) : List Int → Option StatResult
  | ino :: dev :: nlink :: uid :: gid :: size :: atime :: mtime :: ctime :: _ =>
    some ⟨mode, ino, dev, nlink, uid, gid, size, atime, mtime, ctime⟩
  | _ => none

/-- The output parsing of the remote branch of `Path.stat`: split the captured
output on whitespace, hex-decode the first field as the mode, decimal-decode
the rest, and build an `os.stat_result` (which accepts 10 to 16 values, i.e.
at most 15 fields after the mode). -/
def statParse (out : Str) : Option StatResult :=
  (wsSplit out).head?.bind (fun modeHex =>
    (pyIntHex modeHex).bind (fun mode =>
      (mapOption pyInt (wsSplit out).tail).bind (fun vals =>
        if vals.length ≤ 15 then statOfVals mode vals else none)))

/-- The command string formatted by the remote branch of `Path.exists`. -/
def existsRemoteCmd (lp : LocalPath) : Str :=
  "[[ -f ".data ++ LocalPath.render lp ++ " ]] || echo no".data

/-- `Path.exists` with the host command runner and the local filesystem
check abstracted as oracles: the remote branch runs the conditional-test
command and compares the captured output against the sentinel `"no"`. -/
def Path.existsFn (run : Str → Str) (localExists : LocalPath → Bool) (p : Path) : Bool :=
  if p.host.is_remote then !(run (existsRemoteCmd p.path) == "no".data)
  else localExists p.path

/-- The kind of filesystem object at a path, for describing the external
behaviour of the shell test and of `pathlib.Path.exists`. -/
inductive FileKind where
  | regular
  | directory
  | missing
deriving DecidableEq

/-- Modelled from the spec: the captured output of the external shell
command `[[ -f <path> ]] || echo no` by the kind of object at the path —
the bash `-f` test succeeds only for regular files, so anything else
prints the sentinel `no`. -/
def bashTestFOutput : FileKind → Str
  | .regular => []
  | _ => "no".data

/-- Modelled from the spec: `pathlib.Path.exists()` reports `True` for any
existing object, directories included. -/
def pathlibExists : FileKind → Bool
  | .missing => false
  | _ => true

/-! ## String utility lemmas -/

theorem leadsWith_iff (pat s : Str) : leadsWith pat s = true ↔ ∃ t, s = pat ++ t := by
  induction pat generalizing s with
  | nil => simp [leadsWith]
  | cons a as ih =>
    cases s with
    | nil => simp [leadsWith]
    | cons b bs =>
      simp only [leadsWith, Bool.and_eq_true, beq_iff_eq, ih]
      constructor
      · rintro ⟨rfl, t, rfl⟩; exact ⟨t, rfl⟩
      · rintro ⟨t, ht⟩
        simp only [List.cons_append, List.cons.injEq] at ht
        exact ⟨ht.1.symm, t, ht.2⟩

theorem containsSub_iff (pat s : Str) :
    containsSub pat s = true ↔ ∃ a b, s = a ++ pat ++ b := by
  induction s with
  | nil =>
    simp only [containsSub, List.isEmpty_iff]
    constructor
    · rintro rfl; exact ⟨[], [], rfl⟩
    · rintro ⟨a, b, h⟩
      rcases List.append_eq_nil.mp h.symm with ⟨h1, h2⟩
      exact (List.append_eq_nil.mp h1).2
  | cons x xs ih =>
    simp only [containsSub, Bool.or_eq_true, leadsWith_iff, ih]
    constructor
    · rintro (⟨t, ht⟩ | ⟨a, b, rfl⟩)
      · exact ⟨[], t, by simp [ht]⟩
      · exact ⟨x :: a, b, rfl⟩
    · rintro ⟨a, b, hab⟩
      cases a with
      | nil => exact Or.inl ⟨b, by simpa using hab⟩
      | cons a0 as =>
        simp only [List.cons_append, List.cons.injEq] at hab
        exact Or.inr ⟨as, b, hab.2⟩

theorem containsSub_of_append (pat a b : Str) : containsSub pat (a ++ pat ++ b) = true :=
  (containsSub_iff pat _).mpr ⟨a, b, rfl⟩

theorem mem_of_containsSub_two {c1 c2 : Char} {s : Str}
    (h : containsSub [c1, c2] s = true) : c1 ∈ s ∧ c2 ∈ s := by
  rcases (containsSub_iff _ s).mp h with ⟨a, b, rfl⟩
  constructor <;> simp

theorem idxC_of_not_mem {c : Char} {s : Str} (h : c ∉ s) : idxC c s = s.length := by
  induction s with
  | nil => rfl
  | cons x xs ih =>
    simp only [List.mem_cons, not_or] at h
    simp [idxC, Ne.symm h.1, ih h.2]

theorem idxC_lt_length {c : Char} {s : Str} (h : c ∈ s) : idxC c s < s.length := by
  induction s with
  | nil => cases h
  | cons x xs ih =>
    by_cases hx : x = c
    · simp [idxC, hx]
    · rcases List.mem_cons.mp h with hz | hz
      · exact absurd hz.symm hx
      · simpa [idxC, hx] using ih hz

theorem mem_of_idxC_lt {c : Char} {s : Str} (h : idxC c s < s.length) : c ∈ s := by
  by_contra hc
  rw [idxC_of_not_mem hc] at h
  exact lt_irrefl _ h

theorem idxC_append_left {c : Char} {a : Str} (h : c ∈ a) (b : Str) :
    idxC c (a ++ b) = idxC c a := by
  induction a with
  | nil => cases h
  | cons x xs ih =>
    by_cases hx : x = c
    · simp [idxC, hx]
    · rcases List.mem_cons.mp h with hz | hz
      · exact absurd hz.symm hx
      · simp [idxC, hx, ih hz]

theorem idxC_append_right {c : Char} {a : Str} (h : c ∉ a) (b : Str) :
    idxC c (a ++ b) = a.length + idxC c b := by
  induction a with
  | nil => simp
  | cons x xs ih =>
    simp only [List.mem_cons, not_or] at h
    have hx : idxC c (x :: (xs ++ b)) = idxC c (xs ++ b) + 1 := by
      simp [idxC, Ne.symm h.1]
    rw [List.cons_append, hx, ih h.2, List.length_cons]
    omega

theorem splitOnce_eq_some {pat s a b : Str} (h : splitOnce pat s = some (a, b)) :
    s = a ++ pat ++ b := by
  induction s generalizing a b with
  | nil => simp [splitOnce] at h
  | cons x xs ih =>
    by_cases hl : leadsWith pat (x :: xs) = true
    · rcases (leadsWith_iff _ _).mp hl with ⟨t, ht⟩
      rw [splitOnce, if_pos hl] at h
      simp only [Option.some.injEq, Prod.mk.injEq] at h
      rw [ht, List.drop_append_of_le_length (le_refl _), List.drop_length,
        List.nil_append] at h
      rw [← h.1, ht, ← h.2]
      simp
    · rw [splitOnce, if_neg hl] at h
      cases hso : splitOnce pat xs with
      | none => rw [hso] at h; cases h
      | some ab =>
        rcases ab with ⟨a', b'⟩
        rw [hso] at h
        simp only [Option.some.injEq, Prod.mk.injEq] at h
        rw [← h.1, ← h.2]
        simpa using ih hso

theorem splitOnce_isSome_of_contains {pat s : Str} (h : containsSub pat s = true)
    (hp : pat ≠ []) : (splitOnce pat s).isSome = true := by
  induction s with
  | nil =>
    rw [containsSub, List.isEmpty_iff] at h
    exact absurd h hp
  | cons x xs ih =>
    rw [containsSub, Bool.or_eq_true] at h
    by_cases hl : leadsWith pat (x :: xs) = true
    · simp [splitOnce, hl]
    · rcases h with h | h
      · exact absurd h hl
      · have := ih h
        rw [splitOnce, if_neg hl]
        cases hso : splitOnce pat xs with
        | none => rw [hso] at this; cases this
        | some ab => cases ab; simp

theorem splitOnce_first2 {c1 c2 : Char} {a b : Str} (h2 : c2 ∉ a) (hne : c1 ≠ c2) :
    splitOnce [c1, c2] (a ++ c1 :: c2 :: b) = some (a, b) := by
  induction a with
  | nil =>
    have : leadsWith [c1, c2] (c1 :: c2 :: b) = true := by simp [leadsWith]
    simp [splitOnce, this]
  | cons x xs ih =>
    simp only [List.mem_cons, not_or] at h2
    have hl : ¬leadsWith [c1, c2] (x :: (xs ++ c1 :: c2 :: b)) = true := by
      rw [leadsWith_iff]
      rintro ⟨t, ht⟩
      simp only [List.cons_append, List.append_assoc, List.cons.injEq] at ht
      rcases ht with ⟨rfl, ht⟩
      cases xs with
      | nil =>
        simp only [List.nil_append, List.cons.injEq] at ht
        exact hne ht.1
      | cons y ys =>
        simp only [List.cons_append, List.cons.injEq] at ht
        exact h2.2 (by simp [ht.1])
    rw [List.cons_append, splitOnce, if_neg hl, ih h2.2]

theorem splitOnce_single {c : Char} {a b : Str} (h : c ∉ a) :
    splitOnce [c] (a ++ c :: b) = some (a, b) := by
  induction a with
  | nil => simp [splitOnce, leadsWith]
  | cons x xs ih =>
    simp only [List.mem_cons, not_or] at h
    have hl : ¬leadsWith [c] (x :: (xs ++ c :: b)) = true := by
      rw [leadsWith_iff]
      rintro ⟨t, ht⟩
      simp only [List.cons_append, List.cons.injEq] at ht
      exact h.1 ht.1.symm
    rw [List.cons_append, splitOnce, if_neg hl, ih h.2]

theorem splitOnce_single_not_mem {c : Char} {s a b : Str}
    (h : splitOnce [c] s = some (a, b)) : c ∉ a := by
  induction s generalizing a b with
  | nil => simp [splitOnce] at h
  | cons x xs ih =>
    by_cases hl : leadsWith [c] (x :: xs) = true
    · rw [splitOnce, if_pos hl] at h
      simp only [Option.some.injEq, Prod.mk.injEq] at h
      rw [← h.1]; simp
    · rw [splitOnce, if_neg hl] at h
      cases hso : splitOnce [c] xs with
      | none => rw [hso] at h; cases h
      | some ab =>
        rcases ab with ⟨a', b'⟩
        rw [hso] at h
        simp only [Option.some.injEq, Prod.mk.injEq] at h
        have hx : x ≠ c := by
          intro hx
          apply hl
          simp [leadsWith, hx]
        rw [← h.1]
        simp only [List.mem_cons, not_or]
        exact ⟨fun hc => hx hc.symm, ih hso⟩

theorem containsSub_append_two {c1 c2 : Char} {a b : Str}
    (h : containsSub [c1, c2] (a ++ b) = true) :
    containsSub [c1, c2] a = true ∨ containsSub [c1, c2] b = true ∨
      (a.getLast? = some c1 ∧ b.head? = some c2) := by
  induction a with
  | nil => exact Or.inr (Or.inl (by simpa using h))
  | cons x xs ih =>
    rw [List.cons_append, containsSub, Bool.or_eq_true] at h
    rcases h with h | h
    · -- pattern matches at the head of x :: (xs ++ b)
      rcases (leadsWith_iff _ _).mp h with ⟨t, ht⟩
      have ht' : x = c1 ∧ xs ++ b = c2 :: t := by simpa using ht
      rcases ht' with ⟨hx, htail⟩
      cases xs with
      | nil =>
        cases b with
        | nil => simp at htail
        | cons b0 bs =>
          have hb0 : b0 = c2 ∧ bs = t := by simpa using htail
          exact Or.inr (Or.inr (by simp [hx, hb0.1]))
      | cons y ys =>
        have hy : y = c2 ∧ ys ++ b = t := by simpa using htail
        refine Or.inl ?_
        have hlw : leadsWith [c1, c2] (x :: y :: ys) = true := by
          simp [leadsWith, hx, hy.1]
        rw [containsSub, hlw]
        simp
    · rcases ih h with hz | hz | hz
      · exact Or.inl (by rw [containsSub, hz]; simp)
      · exact Or.inr (Or.inl hz)
      · rcases hz with ⟨hlast, hhead⟩
        cases xs with
        | nil => simp at hlast
        | cons y ys =>
          refine Or.inr (Or.inr ⟨?_, hhead⟩)
          rw [List.getLast?_cons_cons]
          exact hlast

/-- A single-`c` decomposition is unique when neither side of the given
decomposition contains `c` again. -/
theorem append_single_eq {c : Char} {P R a b : Str} (hP : c ∉ P) (ha : c ∉ a)
    (h : P ++ c :: R = a ++ c :: b) : P = a ∧ R = b := by
  induction P generalizing a with
  | nil =>
    cases a with
    | nil => simpa using h
    | cons x as =>
      have hx : c = x ∧ R = as ++ c :: b := by simpa using h
      exact absurd (by simp [← hx.1] : c ∈ x :: as) ha
  | cons p ps ih =>
    cases a with
    | nil =>
      have hx : p = c ∧ ps ++ c :: R = b := by simpa using h
      exact absurd (by simp [hx.1]) hP
    | cons x as =>
      have hx : p = x ∧ ps ++ c :: R = as ++ c :: b := by simpa using h
      simp only [List.mem_cons, not_or] at hP ha
      have := ih hP.2 ha.2 hx.2
      exact ⟨by rw [hx.1, this.1], this.2⟩

/-! ## `splitP`, `countLead`, `joinSlash` lemmas -/

theorem splitP_ne_nil (pr : Char → Bool) (s : Str) : splitP pr s ≠ [] := by
  cases s with
  | nil => simp [splitP]
  | cons x xs =>
    rw [splitP]
    by_cases hx : pr x = true
    · simp [hx]
    · simp only [hx]
      cases hsp : splitP pr xs <;> simp

theorem splitP_cons_of_neg {pr : Char → Bool} {x : Char} (hx : pr x = false) (s : Str) :
    ∃ h1 t1, splitP pr s = h1 :: t1 ∧ splitP pr (x :: s) = (x :: h1) :: t1 := by
  cases hsp : splitP pr s with
  | nil => exact absurd hsp (splitP_ne_nil pr s)
  | cons h1 t1 =>
    refine ⟨h1, t1, rfl, ?_⟩
    rw [splitP, hx]
    simp [hsp]

theorem splitP_pieces {pr : Char → Bool} {s : Str} :
    ∀ piece ∈ splitP pr s, ∀ c ∈ piece, pr c = false := by
  induction s with
  | nil => intro piece hp c hc; simp [splitP] at hp; simp [hp] at hc
  | cons x xs ih =>
    intro piece hp c hc
    by_cases hx : pr x = true
    · rw [splitP, if_pos hx] at hp
      rcases List.mem_cons.mp hp with h | h
      · simp [h] at hc
      · exact ih piece h c hc
    · have hx' : pr x = false := by simpa using hx
      rcases splitP_cons_of_neg hx' xs with ⟨h1, t1, hsp, hsp2⟩
      rw [hsp2] at hp
      rcases List.mem_cons.mp hp with h | h
      · subst h
        rcases List.mem_cons.mp hc with h | h
        · rw [h]; exact hx'
        · exact ih h1 (by rw [hsp]; exact List.mem_cons_self _ _) c h
      · exact ih piece (by rw [hsp]; exact List.mem_cons_of_mem _ h) c hc

theorem splitP_of_all_neg {pr : Char → Bool} {s : Str} (h : ∀ c ∈ s, pr c = false) :
    splitP pr s = [s] := by
  induction s with
  | nil => rfl
  | cons x xs ih =>
    have hx : pr x = false := h x (List.mem_cons_self _ _)
    rcases splitP_cons_of_neg hx xs with ⟨h1, t1, hsp, hsp2⟩
    rw [ih (fun c hc => h c (List.mem_cons_of_mem _ hc))] at hsp
    rcases List.cons.inj hsp.symm with ⟨h1', h2'⟩
    rw [hsp2, ← h1', ← h2']

theorem splitP_append_sep {pr : Char → Bool} {a : Str} (ha : ∀ c ∈ a, pr c = false)
    {x : Char} (hx : pr x = true) (b : Str) :
    splitP pr (a ++ x :: b) = a :: splitP pr b := by
  induction a with
  | nil => simp [splitP, hx]
  | cons y ys ih =>
    have hy : pr y = false := ha y (List.mem_cons_self _ _)
    have ihy := ih (fun c hc => ha c (List.mem_cons_of_mem _ hc))
    rcases splitP_cons_of_neg hy (ys ++ x :: b) with ⟨h1, t1, hsp, hsp2⟩
    rw [ihy] at hsp
    rcases List.cons.inj hsp.symm with ⟨h1', h2'⟩
    rw [List.cons_append, hsp2, ← h1', ← h2']

theorem countLead_cons_ne {c x : Char} (h : x ≠ c) (s : Str) :
    countLead c (x :: s) = 0 := by simp [countLead, h]

theorem countLead_cons_eq {c : Char} (s : Str) :
    countLead c (c :: s) = countLead c s + 1 := by simp [countLead]

theorem countLead_append_ne {c : Char} {n : Str} (hne : n ≠ []) (hmem : c ∉ n) (t : Str) :
    countLead c (n ++ t) = 0 := by
  cases n with
  | nil => exact absurd rfl hne
  | cons x xs =>
    have : x ≠ c := fun h => hmem (by simp [h])
    simp [countLead, this]

/-! ## `LocalPath` parse/render lemmas -/

namespace LocalPath

theorem joinSlash_cons_cons (n : Str) (m : Str) (ns : List Str) :
    joinSlash (n :: m :: ns) = n ++ '/' :: joinSlash (m :: ns) := by
  rfl

theorem splitP_joinSlash {names : List Str} (hne : names ≠ [])
    (h : ∀ nm ∈ names, '/' ∉ nm) :
    splitP (fun c => c == '/') (joinSlash names) = names := by
  induction names with
  | nil => exact absurd rfl hne
  | cons n ns ih =>
    cases ns with
    | nil =>
      have := @splitP_of_all_neg (fun c => c == '/') n
        (fun c hc => by
          have := h n (List.mem_cons_self _ _)
          simp only [beq_eq_false_iff_ne, ne_eq]
          exact fun hcc => this (hcc ▸ hc))
      simpa [joinSlash] using this
    | cons m ms =>
      rw [joinSlash_cons_cons]
      have hn : ∀ c ∈ n, (fun c => c == '/') c = false := fun c hc => by
        have := h n (List.mem_cons_self _ _)
        simp only [beq_eq_false_iff_ne, ne_eq]
        exact fun hcc => this (hcc ▸ hc)
      rw [splitP_append_sep hn (by simp) (joinSlash (m :: ms))]
      rw [ih (by simp) (fun nm hm => h nm (List.mem_cons_of_mem _ hm))]

theorem parse_root (s : Str) :
    (parse s).root = if countLead '/' s = 2 then 2 else min (countLead '/' s) 1 := rfl

theorem parse_names (s : Str) :
    (parse s).names =
      (splitP (fun c => c == '/') s).filter (fun p => !p.isEmpty && p != ['.']) := rfl

theorem parse_wf (s : Str) : (parse s).wf := by
  constructor
  · rw [parse_root]
    split <;> omega
  · intro nm hnm
    rw [parse_names] at hnm
    have hmem := List.mem_of_mem_filter hnm
    have hfil := List.of_mem_filter hnm
    simp only [Bool.and_eq_true, Bool.not_eq_true', List.isEmpty_iff, bne_iff_ne, ne_eq] at hfil
    refine ⟨by simpa using hfil.1, hfil.2, ?_⟩
    intro hsl
    have := splitP_pieces nm hmem '/' hsl
    simp at this

theorem names_filter_eq {names : List Str}
    (hn : ∀ nm ∈ names, nm ≠ [] ∧ nm ≠ ['.'] ∧ '/' ∉ nm) :
    names.filter (fun p => !p.isEmpty && p != ['.']) = names := by
  rw [List.filter_eq_self]
  intro nm hnm
  rcases hn nm hnm with ⟨h1, h2, _⟩
  simp only [Bool.and_eq_true, Bool.not_eq_true', bne_iff_ne, ne_eq]
  refine ⟨?_, h2⟩
  simpa using h1

theorem countLead_joinSlash {names : List Str} {n : Str} {ns : List Str}
    (hnames : names = n :: ns)
    (hn : ∀ nm ∈ names, nm ≠ [] ∧ nm ≠ ['.'] ∧ '/' ∉ nm) :
    countLead '/' (joinSlash names) = 0 := by
  subst hnames
  rcases hn n (List.mem_cons_self _ _) with ⟨h1, _, h3⟩
  cases ns with
  | nil =>
    show countLead '/' (joinSlash [n]) = 0
    have hj : joinSlash [n] = n := rfl
    rw [hj]
    cases n with
    | nil => rfl
    | cons x xs => exact countLead_cons_ne (fun h => h3 (by simp [h])) xs
  | cons m ms =>
    rw [joinSlash_cons_cons]
    exact countLead_append_ne h1 h3 _

theorem eq_of_parts {p q : LocalPath} (h1 : p.root = q.root) (h2 : p.names = q.names) :
    p = q := by
  cases p; cases q; simp_all

theorem parse_render {p : LocalPath} (h : p.wf) : parse (render p) = p := by
  obtain ⟨r, names⟩ := p
  obtain ⟨hr, hn⟩ := h
  simp only at hr hn
  rcases names with _ | ⟨n, ns⟩
  · -- no names: render is ".", "/" or "//"
    interval_cases r
    · rfl
    · rfl
    · rfl
  · -- at least one name
    have hne : (n :: ns : List Str) ≠ [] := by simp
    have hnosl : ∀ nm ∈ (n :: ns : List Str), '/' ∉ nm := fun nm hm => (hn nm hm).2.2
    have hcl : countLead '/' (joinSlash (n :: ns)) = 0 := countLead_joinSlash rfl hn
    have hsp : splitP (fun c => c == '/') (joinSlash (n :: ns)) = n :: ns :=
      splitP_joinSlash hne hnosl
    have hfil := names_filter_eq hn
    interval_cases r
    · -- relative
      have hrend : render ⟨0, n :: ns⟩ = joinSlash (n :: ns) := by
        simp [render, rootStr]
      rw [hrend]
      refine eq_of_parts ?_ ?_
      · rw [parse_root, hcl]; rfl
      · rw [parse_names, hsp, hfil]
    · -- root "/"
      have hrend : render ⟨1, n :: ns⟩ = '/' :: joinSlash (n :: ns) := by
        simp [render, rootStr]
      rw [hrend]
      refine eq_of_parts ?_ ?_
      · rw [parse_root, countLead_cons_eq, hcl]; rfl
      · rw [parse_names]
        rw [show splitP (fun c => c == '/') ('/' :: joinSlash (n :: ns)) =
            [] :: splitP (fun c => c == '/') (joinSlash (n :: ns)) from ?_]
        · rw [hsp, List.filter_cons_of_neg (by simp), hfil]
        · rw [splitP]; simp
    · -- root "//"
      have hrend : render ⟨2, n :: ns⟩ = '/' :: '/' :: joinSlash (n :: ns) := by
        simp [render, rootStr]
      rw [hrend]
      refine eq_of_parts ?_ ?_
      · rw [parse_root, countLead_cons_eq, countLead_cons_eq, hcl]; rfl
      · rw [parse_names]
        rw [show splitP (fun c => c == '/') ('/' :: '/' :: joinSlash (n :: ns)) =
            [] :: [] :: splitP (fun c => c == '/') (joinSlash (n :: ns)) from ?_]
        · rw [hsp, List.filter_cons_of_neg (by simp), List.filter_cons_of_neg (by simp), hfil]
        · rw [splitP, splitP]; simp

end LocalPath

/-! ## Integer rendering and parsing lemmas -/

theorem digCh_isDig {d : Nat} (h : d < 10) : isDig (digCh d) = true := by
  interval_cases d <;> decide

theorem digCh_val {d : Nat} (h : d < 10) : (digCh d).toNat - 48 = d := by
  interval_cases d <;> decide

theorem natToCharsAux_eq_append (n : Nat) (acc : Str) :
    natToCharsAux n acc = natToCharsAux n [] ++ acc := by
  induction n using Nat.strong_induction_on generalizing acc with
  | _ n ih =>
    match n with
    | 0 => simp [natToCharsAux]
    | m + 1 =>
      rw [natToCharsAux, natToCharsAux]
      have hlt : (m + 1) / 10 < m + 1 := Nat.div_lt_self (Nat.succ_pos m) (by norm_num)
      rw [ih _ hlt (digCh ((m + 1) % 10) :: acc), ih _ hlt [digCh ((m + 1) % 10)]]
      simp

theorem digitsToNat_append_single (a : Str) (c : Char) :
    digitsToNat (a ++ [c]) = digitsToNat a * 10 + (c.toNat - 48) := by
  unfold digitsToNat
  rw [List.foldl_append]
  rfl

theorem natToCharsAux_spec (n : Nat) (h : n ≠ 0) :
    digitsToNat (natToCharsAux n []) = n ∧
      (∀ c ∈ natToCharsAux n [], isDig c = true) ∧ natToCharsAux n [] ≠ [] := by
  induction n using Nat.strong_induction_on with
  | _ n ih =>
    match n, h with
    | m + 1, _ =>
      rw [natToCharsAux, natToCharsAux_eq_append]
      have hlt : (m + 1) / 10 < m + 1 := Nat.div_lt_self (Nat.succ_pos m) (by norm_num)
      have hmod : (m + 1) % 10 < 10 := Nat.mod_lt _ (by norm_num)
      have hdm := Nat.div_add_mod (m + 1) 10
      by_cases hq : (m + 1) / 10 = 0
      · rw [hq]
        have h0 : natToCharsAux 0 [] = [] := by simp [natToCharsAux]
        rw [h0]
        refine ⟨?_, ?_, by simp⟩
        · rw [digitsToNat_append_single, digCh_val hmod]
          have hz : digitsToNat ([] : Str) = 0 := rfl
          rw [hz]
          omega
        · intro c hc
          simp only [List.nil_append, List.mem_singleton] at hc
          rw [hc]
          exact digCh_isDig hmod
      · rcases ih _ hlt hq with ⟨h1, h2, h3⟩
        refine ⟨?_, ?_, by simp [h3]⟩
        · rw [digitsToNat_append_single, h1, digCh_val hmod]
          omega
        · intro c hc
          rcases List.mem_append.mp hc with hc | hc
          · exact h2 c hc
          · rw [List.mem_singleton.mp hc]
            exact digCh_isDig hmod

theorem natRender_spec (n : Nat) :
    digitsToNat (natRender n) = n ∧
      (∀ c ∈ natRender n, isDig c = true) ∧ natRender n ≠ [] := by
  unfold natRender
  by_cases h : n = 0
  · subst h; exact ⟨rfl, by decide, by decide⟩
  · rw [if_neg h]; exact natToCharsAux_spec n h

theorem isDig_not_ws {c : Char} (h : isDig c = true) : isWs c = false := by
  unfold isDig at h
  unfold isWs
  simp only [Bool.and_eq_true, decide_eq_true_eq] at h
  simp only [Bool.or_eq_false_iff, beq_eq_false_iff_ne, ne_eq]
  refine ⟨⟨⟨⟨⟨?_, ?_⟩, ?_⟩, ?_⟩, ?_⟩, ?_⟩ <;>
    (intro hc; rw [hc] at h; simp at h)

theorem dropWsL_of_all {s : Str} (h : ∀ c ∈ s, isWs c = false) : dropWsL s = s := by
  cases s with
  | nil => rfl
  | cons x xs =>
    have := h x (List.mem_cons_self _ _)
    simp [dropWsL, this]

theorem stripWs_of_all {s : Str} (h : ∀ c ∈ s, isWs c = false) : stripWs s = s := by
  unfold stripWs
  rw [dropWsL_of_all (fun c hc => h c (List.mem_reverse.mp hc)), List.reverse_reverse,
    dropWsL_of_all h]

theorem mem_dropWsL {s : Str} {c : Char} (h : c ∈ s) :
    c ∈ dropWsL s ∨ isWs c = true := by
  induction s with
  | nil => cases h
  | cons x xs ih =>
    rw [dropWsL]
    by_cases hx : isWs x = true
    · rw [if_pos hx]
      rcases List.mem_cons.mp h with hz | hz
      · exact Or.inr (hz ▸ hx)
      · exact ih hz
    · rw [if_neg hx]
      exact Or.inl h

theorem mem_stripWs {s : Str} {c : Char} (h : c ∈ s) :
    c ∈ stripWs s ∨ isWs c = true := by
  unfold stripWs
  rcases mem_dropWsL (List.mem_reverse.mpr h) with hz | hz
  · rcases mem_dropWsL (List.mem_reverse.mpr hz) with hzz | hzz
    · exact Or.inl hzz
    · exact Or.inr hzz
  · exact Or.inr hz

theorem pyInt_eq_of_strip {s : Str} {c0 : Char} {ds : Str} (hst : stripWs s = c0 :: ds) :
    pyInt s =
      (if c0 = '-' then
        if ds ≠ [] ∧ ds.all isDig then some (-(digitsToNat ds : Int)) else none
      else if c0 = '+' then
        if ds ≠ [] ∧ ds.all isDig then some ((digitsToNat ds : Int)) else none
      else
        if (c0 :: ds).all isDig then some ((digitsToNat (c0 :: ds) : Int)) else none) := by
  rw [pyInt, hst]

theorem pyInt_chars {s : Str} {n : Int} (h : pyInt s = some n) :
    ∀ c ∈ s, isWs c = true ∨ isDig c = true ∨ c = '-' ∨ c = '+' := by
  intro c hc
  rcases mem_stripWs hc with hm | hm
  · rcases hst : stripWs s with _ | ⟨c0, ds⟩
    · rw [hst] at hm; cases hm
    · rw [pyInt_eq_of_strip hst] at h
      rw [hst] at hm
      by_cases h0 : c0 = '-'
      · rw [if_pos h0] at h
        by_cases hcond : ds ≠ [] ∧ ds.all isDig
        · rcases List.mem_cons.mp hm with hz | hz
          · exact Or.inr (Or.inr (Or.inl (hz ▸ h0)))
          · exact Or.inr (Or.inl (List.all_eq_true.mp hcond.2 c hz))
        · rw [if_neg hcond] at h; cases h
      · rw [if_neg h0] at h
        by_cases h1 : c0 = '+'
        · rw [if_pos h1] at h
          by_cases hcond : ds ≠ [] ∧ ds.all isDig
          · rcases List.mem_cons.mp hm with hz | hz
            · exact Or.inr (Or.inr (Or.inr (hz ▸ h1)))
            · exact Or.inr (Or.inl (List.all_eq_true.mp hcond.2 c hz))
          · rw [if_neg hcond] at h; cases h
        · rw [if_neg h1] at h
          by_cases hcond : (c0 :: ds).all isDig
          · exact Or.inr (Or.inl (List.all_eq_true.mp hcond c hm))
          · rw [if_neg hcond] at h; cases h
  · exact Or.inl hm

theorem pyInt_no_slash {s : Str} {n : Int} (h : pyInt s = some n) : '/' ∉ s := by
  intro hc
  rcases pyInt_chars h '/' hc with hz | hz | hz | hz <;> simp [isWs, isDig] at hz

theorem pyInt_no_tilde {s : Str} {n : Int} (h : pyInt s = some n) : '~' ∉ s := by
  intro hc
  rcases pyInt_chars h '~' hc with hz | hz | hz | hz <;> simp [isWs, isDig] at hz

theorem pyInt_of_digits {s : Str} (hne : s ≠ []) (hd : ∀ c ∈ s, isDig c = true) :
    pyInt s = some (digitsToNat s : Int) := by
  have hnws : ∀ c ∈ s, isWs c = false := fun c hc => isDig_not_ws (hd c hc)
  cases s with
  | nil => exact absurd rfl hne
  | cons c0 ds =>
    have hst : stripWs (c0 :: ds) = c0 :: ds := stripWs_of_all hnws
    have h0 : isDig c0 = true := hd c0 (List.mem_cons_self _ _)
    have hne1 : c0 ≠ '-' := by intro hc; rw [hc] at h0; simp [isDig] at h0
    have hne2 : c0 ≠ '+' := by intro hc; rw [hc] at h0; simp [isDig] at h0
    rw [pyInt_eq_of_strip hst, if_neg hne1, if_neg hne2,
      if_pos (List.all_eq_true.mpr hd)]

theorem pyInt_intRender (i : Int) : pyInt (intRender i) = some i := by
  rcases natRender_spec i.natAbs with ⟨hv, hd, hne⟩
  unfold intRender
  by_cases hi : i < 0
  · rw [if_pos hi]
    have hnws : ∀ c ∈ ('-' :: natRender i.natAbs), isWs c = false := by
      intro c hc
      rcases List.mem_cons.mp hc with hz | hz
      · rw [hz]; decide
      · exact isDig_not_ws (hd c hz)
    have hst : stripWs ('-' :: natRender i.natAbs) = '-' :: natRender i.natAbs :=
      stripWs_of_all hnws
    rw [pyInt_eq_of_strip hst, if_pos rfl, if_pos ⟨hne, List.all_eq_true.mpr hd⟩, hv]
    congr 1
    omega
  · rw [if_neg hi]
    rcases natRender_spec i.toNat with ⟨hv', hd', hne'⟩
    rw [pyInt_of_digits hne' hd', hv']
    congr 1
    omega

theorem intRender_chars {i : Int} {c : Char} (hc : c ∈ intRender i) :
    isDig c = true ∨ c = '-' := by
  unfold intRender at hc
  by_cases hi : i < 0
  · rw [if_pos hi] at hc
    rcases List.mem_cons.mp hc with hz | hz
    · exact Or.inr hz
    · exact Or.inl ((natRender_spec i.natAbs).2.1 c hz)
  · rw [if_neg hi] at hc
    exact Or.inl ((natRender_spec i.toNat).2.1 c hc)

theorem intRender_no_special {i : Int} {c : Char}
    (h : c = ':' ∨ c = '@' ∨ c = '/' ∨ c = '~') : c ∉ intRender i := by
  intro hc
  rcases intRender_chars hc with hz | hz <;>
    rcases h with rfl | rfl | rfl | rfl <;> simp [isDig] at hz

theorem intRender_ne_nil (i : Int) : intRender i ≠ [] := by
  unfold intRender
  by_cases hi : i < 0
  · rw [if_pos hi]; simp
  · rw [if_neg hi]; exact (natRender_spec i.toNat).2.2

/-! ## `Remote.from_str` and `Remote.__str__` lemmas -/

theorem count_append_single_eq_one {c : Char} {a b : Str} (ha : c ∉ a) (hb : c ∉ b) :
    (a ++ c :: b).count c = 1 := by
  rw [List.count_append, List.count_cons_self,
    List.count_eq_zero.mpr ha, List.count_eq_zero.mpr hb]

theorem not_mem_right_of_count_one {c : Char} {a b : Str}
    (h : (a ++ c :: b).count c = 1) : c ∉ b := by
  rw [List.count_append, List.count_cons_self] at h
  have : b.count c = 0 := by omega
  exact List.count_eq_zero.mp this

theorem containsSub_single_of_mem {c : Char} {s : Str} (h : c ∈ s) :
    containsSub [c] s = true := by
  rcases List.append_of_mem h with ⟨a, b, rfl⟩
  simpa using containsSub_of_append [c] a b

theorem splitOnce_some_of_contains {pat s : Str} (hc : containsSub pat s = true)
    (hp : pat ≠ []) : ∃ a b, splitOnce pat s = some (a, b) := by
  have := splitOnce_isSome_of_contains hc hp
  rcases hso : splitOnce pat s with _ | ⟨a, b⟩
  · rw [hso] at this; cases this
  · exact ⟨a, b, rfl⟩

theorem splitOnce_single_some {c : Char} {s : Str} (h : c ∈ s) :
    ∃ a b, splitOnce [c] s = some (a, b) :=
  splitOnce_some_of_contains (containsSub_single_of_mem h) (by simp)

theorem from_str_user_of_at {du : Str} {u h2 : Str} {port : Int}
    (hu : '@' ∉ u) (hh : '@' ∉ h2) :
    from_str_user du port (u ++ '@' :: h2) = some ⟨h2, u, port⟩ := by
  unfold from_str_user
  have hmem : '@' ∈ u ++ '@' :: h2 := by simp
  rw [if_pos hmem, if_pos (count_append_single_eq_one hu hh), splitOnce_single hu]

theorem from_str_user_of_no_at {du : Str} {port : Int} {h1 : Str} (h : '@' ∉ h1) :
    from_str_user du port h1 = some ⟨h1, du, port⟩ := by
  unfold from_str_user
  rw [if_neg h]

theorem from_str_user_fields {du : Str} {port : Int} {h1 : Str} {r : Remote}
    (h : from_str_user du port h1 = some r) :
    r.port = port ∧ (∀ c ∈ r.hostname, c ∈ h1) ∧ '@' ∉ r.hostname ∧
      (r.user = du ∨ ((∀ c ∈ r.user, c ∈ h1) ∧ '@' ∉ r.user)) := by
  unfold from_str_user at h
  by_cases hat : '@' ∈ h1
  · rw [if_pos hat] at h
    by_cases hcount : h1.count '@' = 1
    · rw [if_pos hcount] at h
      rcases splitOnce_single_some hat with ⟨u, h2, hso⟩
      rw [hso] at h
      have hdec : h1 = u ++ '@' :: h2 := by simpa using splitOnce_eq_some hso
      have hu : '@' ∉ u := splitOnce_single_not_mem hso
      have hh2 : '@' ∉ h2 := not_mem_right_of_count_one (hdec ▸ hcount)
      rcases Option.some.inj h with rfl
      refine ⟨rfl, ?_, hh2, Or.inr ⟨?_, hu⟩⟩
      · intro c hc; rw [hdec]; simp [hc]
      · intro c hc; rw [hdec]; simp [hc]
    · rw [if_neg hcount] at h; cases h
  · rw [if_neg hat] at h
    rcases Option.some.inj h with rfl
    exact ⟨rfl, fun c hc => hc, hat, Or.inl rfl⟩

theorem from_str_fields {du desc : Str} {r : Remote} (h : from_str du desc = some r) :
    (∀ c ∈ r.hostname, c ∈ desc) ∧ ':' ∉ r.hostname ∧ '@' ∉ r.hostname ∧
      (r.user = du ∨ ((∀ c ∈ r.user, c ∈ desc) ∧ ':' ∉ r.user ∧ '@' ∉ r.user)) := by
  unfold from_str at h
  by_cases hcol : ':' ∈ desc
  · rw [if_pos hcol] at h
    by_cases hcount : desc.count ':' = 1
    · rw [if_pos hcount] at h
      rcases splitOnce_single_some hcol with ⟨h1, portS, hso⟩
      rw [hso, Option.some_bind] at h
      have hdec : desc = h1 ++ ':' :: portS := by simpa using splitOnce_eq_some hso
      have hch1 : ':' ∉ h1 := splitOnce_single_not_mem hso
      cases hpi : pyInt portS with
      | none => rw [hpi, Option.none_bind] at h; cases h
      | some p =>
        rw [hpi, Option.some_bind] at h
        rcases from_str_user_fields h with ⟨_, hsub, hath, huser⟩
        have hsub' : ∀ c ∈ r.hostname, c ∈ desc := fun c hc => by
          rw [hdec]; simp [hsub c hc]
        refine ⟨hsub', fun hc => hch1 (hsub ':' hc), hath, ?_⟩
        rcases huser with hz | ⟨hsubu, hatu⟩
        · exact Or.inl hz
        · refine Or.inr ⟨fun c hc => by rw [hdec]; simp [hsubu c hc],
            fun hc => hch1 (hsubu ':' hc), hatu⟩
    · rw [if_neg hcount] at h; cases h
  · rw [if_neg hcol] at h
    rcases from_str_user_fields h with ⟨_, hsub, hath, huser⟩
    refine ⟨hsub, fun hc => hcol (hsub ':' hc), hath, ?_⟩
    rcases huser with hz | ⟨hsubu, hatu⟩
    · exact Or.inl hz
    · exact Or.inr ⟨hsubu, fun hc => hcol (hsubu ':' hc), hatu⟩

theorem renderRemote_d1_eq (du : Str) (r : Remote) :
    renderRemote du r =
      (if r.port ≠ 22 then
        (if r.user ≠ du then r.user ++ '@' :: r.hostname else r.hostname)
          ++ ':' :: intRender r.port
      else (if r.user ≠ du then r.user ++ '@' :: r.hostname else r.hostname)) := rfl

theorem not_mem_d1 {du : Str} {r : Remote} {c : Char} (hh : c ∉ r.hostname)
    (hu : r.user = du ∨ c ∉ r.user) (hc : c ≠ '@') :
    c ∉ (if r.user ≠ du then r.user ++ '@' :: r.hostname else r.hostname) := by
  by_cases huser : r.user = du
  · rw [if_neg (by simp [huser])]
    exact hh
  · rw [if_pos huser]
    intro hmem
    rcases List.mem_append.mp hmem with hz | hz
    · rcases hu with hzz | hzz
      · exact huser hzz
      · exact hzz hz
    · rcases List.mem_cons.mp hz with hzz | hzz
      · exact hc hzz
      · exact hh hzz

theorem from_str_renderRemote {du : Str} {r : Remote}
    (hh : ':' ∉ r.hostname ∧ '@' ∉ r.hostname)
    (hu : r.user = du ∨ (':' ∉ r.user ∧ '@' ∉ r.user)) :
    from_str du (renderRemote du r) = some r := by
  obtain ⟨hn, u, port⟩ := r
  simp only at hh hu
  have hcd1 : ':' ∉ (if u ≠ du then u ++ '@' :: hn else hn) := by
    have := @not_mem_d1 du ⟨hn, u, port⟩ ':' hh.1
      (hu.imp id And.left) (by decide)
    simpa using this
  have huser_step : ∀ pt : Int,
      from_str_user du pt (if u ≠ du then u ++ '@' :: hn else hn) =
        some ⟨hn, u, pt⟩ := by
    intro pt
    by_cases huser : u = du
    · rw [if_neg (by simp [huser])]
      rw [from_str_user_of_no_at hh.2, huser]
    · rw [if_pos huser]
      have hatu : '@' ∉ u := by
        rcases hu with hz | hz
        · exact absurd hz huser
        · exact hz.2
      exact from_str_user_of_at hatu hh.2
  rw [renderRemote_d1_eq]
  by_cases hport : port = 22
  · rw [if_neg (by simp [hport])]
    unfold from_str
    rw [if_neg hcd1, huser_step, hport]
  · rw [if_pos (by simpa using hport)]
    unfold from_str
    have hmem : ':' ∈ (if u ≠ du then u ++ '@' :: hn else hn) ++ ':' :: intRender port := by
      simp
    have hcount : ((if u ≠ du then u ++ '@' :: hn else hn) ++ ':' :: intRender port).count ':'
        = 1 :=
      count_append_single_eq_one hcd1 (intRender_no_special (by simp))
    rw [if_pos hmem, if_pos hcount, splitOnce_single hcd1, Option.some_bind,
      pyInt_intRender, Option.some_bind, huser_step]

theorem renderRemote_chars {du : Str} {r : Remote} {c : Char}
    (hc : c ∈ renderRemote du r) :
    c ∈ r.hostname ∨ (r.user ≠ du ∧ c ∈ r.user) ∨ c = '@' ∨ c = ':' ∨
      c ∈ intRender r.port := by
  rw [renderRemote_d1_eq] at hc
  have hd1 : c ∈ (if r.user ≠ du then r.user ++ '@' :: r.hostname else r.hostname) →
      c ∈ r.hostname ∨ (r.user ≠ du ∧ c ∈ r.user) ∨ c = '@' ∨ c = ':' ∨
        c ∈ intRender r.port := by
    intro hmem
    by_cases huser : r.user = du
    · rw [if_neg (by simp [huser])] at hmem
      exact Or.inl hmem
    · rw [if_pos huser] at hmem
      rcases List.mem_append.mp hmem with hz | hz
      · exact Or.inr (Or.inl ⟨huser, hz⟩)
      · rcases List.mem_cons.mp hz with hzz | hzz
        · exact Or.inr (Or.inr (Or.inl hzz))
        · exact Or.inl hzz
  by_cases hport : r.port ≠ 22
  · rw [if_pos hport] at hc
    rcases List.mem_append.mp hc with hz | hz
    · exact hd1 hz
    · rcases List.mem_cons.mp hz with hzz | hzz
      · exact Or.inr (Or.inr (Or.inr (Or.inl hzz)))
      · exact Or.inr (Or.inr (Or.inr (Or.inr hzz)))
  · rw [if_neg hport] at hc
    exact hd1 hc

theorem renderRemote_no_slash {du : Str} {r : Remote} (hh : '/' ∉ r.hostname)
    (hu : r.user = du ∨ '/' ∉ r.user) : '/' ∉ renderRemote du r := by
  intro hc
  rcases renderRemote_chars hc with hz | hz | hz | hz | hz
  · exact hh hz
  · rcases hu with hzz | hzz
    · exact hz.1 hzz
    · exact hzz hz.2
  · cases hz
  · cases hz
  · exact intRender_no_special (by simp) hz

theorem renderRemote_no_tilde {du : Str} {r : Remote} (hh : '~' ∉ r.hostname)
    (hu : r.user = du ∨ '~' ∉ r.user) : '~' ∉ renderRemote du r := by
  intro hc
  rcases renderRemote_chars hc with hz | hz | hz | hz | hz
  · exact hh hz
  · rcases hu with hzz | hzz
    · exact hz.1 hzz
    · exact hzz hz.2
  · cases hz
  · cases hz
  · exact intRender_no_special (by simp) hz

theorem renderRemote_no_colonslash {du : Str} {r : Remote}
    (hh : ':' ∉ r.hostname ∧ '@' ∉ r.hostname)
    (hu : r.user = du ∨ (':' ∉ r.user ∧ '@' ∉ r.user)) :
    containsSub [':', '/'] (renderRemote du r) = false := by
  by_contra hcs
  have hcs' : containsSub [':', '/'] (renderRemote du r) = true := by
    simpa using hcs
  rcases (containsSub_iff _ _).mp hcs' with ⟨a, b, hab⟩
  have hcd1 : ':' ∉ (if r.user ≠ du then r.user ++ '@' :: r.hostname else r.hostname) :=
    not_mem_d1 hh.1 (hu.imp id And.left) (by decide)
  rw [renderRemote_d1_eq] at hab
  by_cases hport : r.port ≠ 22
  · rw [if_pos hport] at hab
    have hca : ':' ∉ a := by
      have hc1 : ((if r.user ≠ du then r.user ++ '@' :: r.hostname else r.hostname)
          ++ ':' :: intRender r.port).count ':' = 1 :=
        count_append_single_eq_one hcd1 (intRender_no_special (by simp))
      rw [hab] at hc1
      have : (a ++ ':' :: ('/' :: b)).count ':' = 1 := by simpa using hc1
      rw [List.count_append, List.count_cons_self] at this
      exact List.count_eq_zero.mp (by omega)
    have := append_single_eq hcd1 hca (by simpa using hab)
    have hsl : '/' ∈ intRender r.port := by rw [this.2]; simp
    exact intRender_no_special (by simp) hsl
  · rw [if_neg hport] at hab
    have : ':' ∈ (if r.user ≠ du then r.user ++ '@' :: r.hostname else r.hostname) := by
      rw [hab]; simp
    exact hcd1 this

/-! ## Shape of rendered bare paths -/

theorem idxC_cons_ne {c x : Char} (h : x ≠ c) (s : Str) :
    idxC c (x :: s) = idxC c s + 1 := by simp [idxC, h]

theorem idxC_cons_self (c : Char) (s : Str) : idxC c (c :: s) = 0 := by simp [idxC]

theorem joinSlash_cons_shape (n : Str) (ns : List Str) :
    ∃ t, LocalPath.joinSlash (n :: ns) = n ++ t := by
  cases ns with
  | nil => exact ⟨[], by simp [LocalPath.joinSlash]⟩
  | cons m ms => exact ⟨'/' :: LocalPath.joinSlash (m :: ms), rfl⟩

theorem render_eq_slash {p : LocalPath} (hw : p.wf) (hr : p.root ≠ 0) :
    ∃ t, p.render = '/' :: t := by
  have h2 : p.root ≤ 2 := hw.1
  unfold LocalPath.render
  rw [if_neg (by simp [hr])]
  unfold LocalPath.rootStr
  interval_cases h : p.root
  · exact absurd rfl hr
  · exact ⟨LocalPath.joinSlash p.names, by simp⟩
  · exact ⟨'/' :: LocalPath.joinSlash p.names, by simp⟩

theorem render_eq_tilde {p : LocalPath} (hr : p.root = 0) {nm : Str} {ns : List Str}
    (hn : p.names = ('~' :: nm) :: ns) : ∃ t, p.render = '~' :: t := by
  unfold LocalPath.render
  rw [if_neg (by simp [hn])]
  unfold LocalPath.rootStr
  rw [hr, hn]
  rcases joinSlash_cons_shape ('~' :: nm) ns with ⟨t, ht⟩
  exact ⟨nm ++ t, by simp [ht]⟩

theorem parse_slash_root (t : Str) : (LocalPath.parse ('/' :: t)).root ≠ 0 := by
  rw [LocalPath.parse_root, countLead_cons_eq]
  split <;> omega

theorem parse_tilde_shape (t : Str) :
    (LocalPath.parse ('~' :: t)).root = 0 ∧
      ∃ nm ns, (LocalPath.parse ('~' :: t)).names = ('~' :: nm) :: ns := by
  constructor
  · rw [LocalPath.parse_root, countLead_cons_ne (by decide)]
    rfl
  · rw [LocalPath.parse_names]
    rcases @splitP_cons_of_neg (fun c => c == '/') '~' (by decide) t with
      ⟨h1, t1, _, hsp2⟩
    rw [hsp2, List.filter_cons_of_pos (by simp)]
    exact ⟨h1, _, rfl⟩

/-! ## Re-parsing lemmas: `split` applied to `prefix ++ rendered bare path` -/

theorem split_local {du s : Str}
    (h1 : ¬(containsSub [':', '/'] s = true ∧ idxC ':' s < idxC '/' s))
    (h2 : ¬(containsSub [':', '~'] s = true ∧ idxC ':' s < idxC '~' s)) :
    split du s = some (Host.localhost, LocalPath.parse s) := by
  unfold split
  rw [if_neg h1, if_neg h2]

theorem split_remote_slash {du : Str} {r : Remote} (t : Str)
    (hA : '/' ∉ renderRemote du r)
    (hfs : from_str du (renderRemote du r) = some r) :
    split du (renderRemote du r ++ ':' :: '/' :: t) =
      some (Host.remote r, LocalPath.parse ('/' :: t)) := by
  have hASSOC : renderRemote du r ++ ':' :: '/' :: t =
      renderRemote du r ++ [':', '/'] ++ t := by simp
  have hcs : containsSub [':', '/'] (renderRemote du r ++ ':' :: '/' :: t) = true := by
    rw [hASSOC]; exact containsSub_of_append _ _ _
  have hslash : idxC '/' (renderRemote du r ++ ':' :: '/' :: t) =
      (renderRemote du r).length + 1 := by
    rw [idxC_append_right hA, idxC_cons_ne (by decide), idxC_cons_self]
  have hcolon : idxC ':' (renderRemote du r ++ ':' :: '/' :: t) ≤
      (renderRemote du r).length := by
    by_cases hmem : ':' ∈ renderRemote du r
    · rw [idxC_append_left hmem]
      exact le_of_lt (idxC_lt_length hmem)
    · rw [idxC_append_right hmem, idxC_cons_self]
      omega
  unfold split
  rw [if_pos ⟨hcs, by omega⟩, splitOnce_first2 hA (by decide), Option.some_bind, hfs,
    Option.map_some']

theorem split_remote_tilde {du : Str} {r : Remote} (t : Str)
    (hAt : '~' ∉ renderRemote du r)
    (hAcs : containsSub [':', '/'] (renderRemote du r) = false)
    (hscs : containsSub [':', '/'] ('~' :: t) = false)
    (hfs : from_str du (renderRemote du r) = some r) :
    split du (renderRemote du r ++ ':' :: '~' :: t) =
      some (Host.remote r, LocalPath.parse ('~' :: t)) := by
  have hg1 : containsSub [':', '/'] (renderRemote du r ++ ':' :: '~' :: t) = false := by
    by_contra hc
    have hc' : containsSub [':', '/']
        ((renderRemote du r ++ [':']) ++ ('~' :: t)) = true := by
      simpa using hc
    rcases containsSub_append_two hc' with hz | hz | hz
    · rcases containsSub_append_two hz with hzz | hzz | hzz
      · rw [hAcs] at hzz; cases hzz
      · simp [containsSub, leadsWith] at hzz
      · rcases hzz with ⟨_, hh⟩
        simp at hh
    · rw [hscs] at hz; cases hz
    · rcases hz with ⟨_, hh⟩
      simp at hh
  have hcs2 : containsSub [':', '~'] (renderRemote du r ++ ':' :: '~' :: t) = true := by
    have hASSOC : renderRemote du r ++ ':' :: '~' :: t =
        renderRemote du r ++ [':', '~'] ++ t := by simp
    rw [hASSOC]; exact containsSub_of_append _ _ _
  have htilde : idxC '~' (renderRemote du r ++ ':' :: '~' :: t) =
      (renderRemote du r).length + 1 := by
    rw [idxC_append_right hAt, idxC_cons_ne (by decide), idxC_cons_self]
  have hcolon : idxC ':' (renderRemote du r ++ ':' :: '~' :: t) ≤
      (renderRemote du r).length := by
    by_cases hmem : ':' ∈ renderRemote du r
    · rw [idxC_append_left hmem]
      exact le_of_lt (idxC_lt_length hmem)
    · rw [idxC_append_right hmem, idxC_cons_self]
      omega
  unfold split
  rw [if_neg (by rw [hg1]; simp), if_pos ⟨hcs2, by omega⟩,
    splitOnce_first2 hAt (by decide), Option.some_bind, hfs, Option.map_some']

/-- The central re-parsing lemma behind the round-trip law: prepending a
well-formed host's prefix to a rendered well-formed bare path and re-parsing
recovers the same host and bare path, provided the bare string is free of
ambiguous sequences and, for a remote host, begins with `/` or `~`. -/
theorem add_remote_reparse {du : Str} {h : Host} {lp : LocalPath}
    (hw : Host.wfFull du h) (hlp : lp.wf) (hun : unamb lp.render)
    (hstart : h = Host.localhost ∨ lp.root ≠ 0 ∨
      (lp.root = 0 ∧ ∃ nm ns, lp.names = ('~' :: nm) :: ns)) :
    split du (prefixStr du h ++ lp.render) = some (h, lp) := by
  cases h with
  | localhost =>
    have h1 : ¬(containsSub [':', '/'] lp.render = true ∧
        idxC ':' lp.render < idxC '/' lp.render) := by
      rw [hun.1]; simp
    have h2 : ¬(containsSub [':', '~'] lp.render = true ∧
        idxC ':' lp.render < idxC '~' lp.render) := by
      rw [hun.2]; simp
    rw [show prefixStr du Host.localhost = [] from rfl, List.nil_append,
      split_local h1 h2, LocalPath.parse_render hlp]
  | remote r =>
    rcases hw with ⟨hhn, hu⟩
    have hfs : from_str du (renderRemote du r) = some r :=
      from_str_renderRemote ⟨fun hc => (hhn ':' hc).1 rfl, fun hc => (hhn '@' hc).2.1 rfl⟩
        (hu.symm.imp id
          (fun hz => ⟨fun hc => (hz ':' hc).1 rfl, fun hc => (hz '@' hc).2.1 rfl⟩))
    rcases hstart with hloc | hroot | ⟨hroot, nm, ns, hnames⟩
    · cases hloc
    · rcases render_eq_slash hlp hroot with ⟨t, ht⟩
      have hA : '/' ∉ renderRemote du r :=
        renderRemote_no_slash (fun hc => (hhn '/' hc).2.2.1 rfl)
          (hu.symm.imp id (fun hz hc => (hz '/' hc).2.2.1 rfl))
      have := split_remote_slash t hA hfs
      rw [show prefixStr du (Host.remote r) = renderRemote du r ++ [':'] from rfl, ht]
      rw [show renderRemote du r ++ [':'] ++ '/' :: t =
        renderRemote du r ++ ':' :: '/' :: t by simp]
      rw [this, ← ht, LocalPath.parse_render hlp]
    · rcases render_eq_tilde hroot hnames with ⟨t, ht⟩
      have hAt : '~' ∉ renderRemote du r :=
        renderRemote_no_tilde (fun hc => (hhn '~' hc).2.2.2 rfl)
          (hu.symm.imp id (fun hz hc => (hz '~' hc).2.2.2 rfl))
      have hAcs : containsSub [':', '/'] (renderRemote du r) = false :=
        renderRemote_no_colonslash
          ⟨fun hc => (hhn ':' hc).1 rfl, fun hc => (hhn '@' hc).2.1 rfl⟩
          (hu.symm.imp id
            (fun hz => ⟨fun hc => (hz ':' hc).1 rfl, fun hc => (hz '@' hc).2.1 rfl⟩))
      have hscs : containsSub [':', '/'] ('~' :: t) = false := by
        rw [← ht]; exact hun.1
      have := split_remote_tilde t hAt hAcs hscs hfs
      rw [show prefixStr du (Host.remote r) = renderRemote du r ++ [':'] from rfl, ht]
      rw [show renderRemote du r ++ [':'] ++ '~' :: t =
        renderRemote du r ++ ':' :: '~' :: t by simp]
      rw [this, ← ht, LocalPath.parse_render hlp]

/-! ## Descriptor cleanliness in a successful `split` -/

theorem from_str_colon_inv {du desc : Str} {r : Remote} (hcol : ':' ∈ desc)
    (h : from_str du desc = some r) :
    ∃ h1 portS p, desc.count ':' = 1 ∧ splitOnce [':'] desc = some (h1, portS) ∧
      desc = h1 ++ ':' :: portS ∧ ':' ∉ h1 ∧ pyInt portS = some p ∧
      from_str_user du p h1 = some r := by
  unfold from_str at h
  rw [if_pos hcol] at h
  by_cases hcount : desc.count ':' = 1
  · rw [if_pos hcount] at h
    rcases splitOnce_single_some hcol with ⟨h1, portS, hso⟩
    rw [hso, Option.some_bind] at h
    cases hpi : pyInt portS with
    | none => rw [hpi, Option.none_bind] at h; cases h
    | some p =>
      rw [hpi, Option.some_bind] at h
      exact ⟨h1, portS, p, hcount, hso, by simpa using splitOnce_eq_some hso,
        splitOnce_single_not_mem hso, hpi, h⟩
  · rw [if_neg hcount] at h; cases h

/-- In a successful remote branch of `split`, the marker character (`/` or `~`)
cannot occur in the host descriptor. -/
theorem branch_desc_no_marker {du p desc rest : Str} {r : Remote} {m : Char}
    (hm : ':' ≠ m)
    (hpy : ∀ {s : Str} {n : Int}, pyInt s = some n → m ∉ s)
    (hg : idxC ':' p < idxC m p)
    (hso : splitOnce [':', m] p = some (desc, rest))
    (hfs : from_str du desc = some r) : m ∉ desc := by
  intro hmem
  have hdec : p = desc ++ ':' :: m :: rest := by simpa using splitOnce_eq_some hso
  have hidxm : idxC m p = idxC m desc := by rw [hdec]; exact idxC_append_left hmem _
  have hmlt : idxC m desc < desc.length := idxC_lt_length hmem
  have hcolmem : ':' ∈ desc := by
    by_contra hc
    have hidx : idxC ':' p = desc.length + idxC ':' (':' :: m :: rest) := by
      rw [hdec]; exact idxC_append_right hc _
    rw [idxC_cons_self] at hidx
    omega
  have hidxc : idxC ':' p = idxC ':' desc := by rw [hdec]; exact idxC_append_left hcolmem _
  have hgd : idxC ':' desc < idxC m desc := by omega
  rcases from_str_colon_inv hcolmem hfs with ⟨h1, portS, pv, _, _, hdec1, hch1, hpi, _⟩
  rcases List.mem_append.mp (by rw [← hdec1]; exact hmem) with hm1 | hm1
  · have h1a : idxC m desc = idxC m h1 := by rw [hdec1]; exact idxC_append_left hm1 _
    have h1b : idxC m h1 < h1.length := idxC_lt_length hm1
    have h1c : idxC ':' desc = h1.length := by
      rw [hdec1, idxC_append_right hch1, idxC_cons_self]
      omega
    omega
  · rcases List.mem_cons.mp hm1 with hz | hz
    · exact hm hz.symm
    · exact hpy hpi hz

/-- The general round-trip law at the level of `split`: re-parsing the host
prefix concatenated with the rendered bare path recovers the same pair,
provided the bare string is free of the ambiguous `:/` and `:~` sequences. -/
theorem split_round_trip {du p : Str} {h : Host} {bp : LocalPath}
    (hs : split du p = some (h, bp)) (hun : unamb bp.render) :
    split du (prefixStr du h ++ bp.render) = some (h, bp) := by
  unfold split at hs
  by_cases hg1 : containsSub [':', '/'] p = true ∧ idxC ':' p < idxC '/' p
  · rw [if_pos hg1] at hs
    rcases splitOnce_some_of_contains hg1.1 (by simp) with ⟨desc, rest, hso⟩
    rw [hso, Option.some_bind] at hs
    cases hfs : from_str du desc with
    | none => rw [hfs] at hs; cases hs
    | some r =>
      rw [hfs, Option.map_some'] at hs
      have hpair := Option.some.inj hs
      rw [Prod.ext_iff] at hpair
      obtain ⟨hh, hbp⟩ := hpair
      subst hh
      subst hbp
      have hnoslash : '/' ∉ desc :=
        branch_desc_no_marker (by decide) (fun h => pyInt_no_slash h) hg1.2 hso hfs
      rcases from_str_fields hfs with ⟨hsub, hcolh, hath, huser⟩
      have hA : '/' ∉ renderRemote du r :=
        renderRemote_no_slash (fun hc => hnoslash (hsub '/' hc))
          (huser.imp id (fun hz hc => hnoslash (hz.1 '/' hc)))
      have hfsr : from_str du (renderRemote du r) = some r :=
        from_str_renderRemote ⟨hcolh, hath⟩ (huser.imp id (fun hz => ⟨hz.2.1, hz.2.2⟩))
      have hwf : (LocalPath.parse ('/' :: rest)).wf := LocalPath.parse_wf _
      rcases render_eq_slash hwf (parse_slash_root rest) with ⟨t, ht⟩
      rw [show prefixStr du (Host.remote r) = renderRemote du r ++ [':'] from rfl, ht]
      rw [show renderRemote du r ++ [':'] ++ '/' :: t =
        renderRemote du r ++ ':' :: '/' :: t by simp]
      rw [split_remote_slash t hA hfsr, ← ht, LocalPath.parse_render hwf]
  · rw [if_neg hg1] at hs
    by_cases hg2 : containsSub [':', '~'] p = true ∧ idxC ':' p < idxC '~' p
    · rw [if_pos hg2] at hs
      rcases splitOnce_some_of_contains hg2.1 (by simp) with ⟨desc, rest, hso⟩
      rw [hso, Option.some_bind] at hs
      cases hfs : from_str du desc with
      | none => rw [hfs] at hs; cases hs
      | some r =>
        rw [hfs, Option.map_some'] at hs
        have hpair := Option.some.inj hs
        rw [Prod.ext_iff] at hpair
        obtain ⟨hh, hbp⟩ := hpair
        subst hh
        subst hbp
        have hnotilde : '~' ∉ desc :=
          branch_desc_no_marker (by decide) (fun h => pyInt_no_tilde h) hg2.2 hso hfs
        rcases from_str_fields hfs with ⟨hsub, hcolh, hath, huser⟩
        have hAt : '~' ∉ renderRemote du r :=
          renderRemote_no_tilde (fun hc => hnotilde (hsub '~' hc))
            (huser.imp id (fun hz hc => hnotilde (hz.1 '~' hc)))
        have hAcs : containsSub [':', '/'] (renderRemote du r) = false :=
          renderRemote_no_colonslash ⟨hcolh, hath⟩
            (huser.imp id (fun hz => ⟨hz.2.1, hz.2.2⟩))
        have hfsr : from_str du (renderRemote du r) = some r :=
          from_str_renderRemote ⟨hcolh, hath⟩ (huser.imp id (fun hz => ⟨hz.2.1, hz.2.2⟩))
        have hwf : (LocalPath.parse ('~' :: rest)).wf := LocalPath.parse_wf _
        rcases parse_tilde_shape rest with ⟨hroot, nm, ns, hnames⟩
        rcases render_eq_tilde hroot hnames with ⟨t, ht⟩
        have hscs : containsSub [':', '/'] ('~' :: t) = false := by
          rw [← ht]; exact hun.1
        rw [show prefixStr du (Host.remote r) = renderRemote du r ++ [':'] from rfl, ht]
        rw [show renderRemote du r ++ [':'] ++ '~' :: t =
          renderRemote du r ++ ':' :: '~' :: t by simp]
        rw [split_remote_tilde t hAt hAcs hscs hfsr, ← ht, LocalPath.parse_render hwf]
    · rw [if_neg hg2] at hs
      have hpair := Option.some.inj hs
      rw [Prod.ext_iff] at hpair
      obtain ⟨hh, hbp⟩ := hpair
      subst hh
      subst hbp
      have h1 : ¬(containsSub [':', '/'] (LocalPath.parse p).render = true ∧
          idxC ':' (LocalPath.parse p).render < idxC '/' (LocalPath.parse p).render) := by
        rw [hun.1]; simp
      have h2 : ¬(containsSub [':', '~'] (LocalPath.parse p).render = true ∧
          idxC ':' (LocalPath.parse p).render < idxC '~' (LocalPath.parse p).render) := by
        rw [hun.2]; simp
      rw [show prefixStr du Host.localhost = [] from rfl, List.nil_append,
        split_local h1 h2, LocalPath.parse_render (LocalPath.parse_wf p)]

/-- `Path._add_remote` succeeds and preserves the host whenever the host is
well formed, the bare path is well formed and unambiguous, and (for a remote
host) it begins with `/` or `~`. -/
theorem add_remote_ok {du : Str} {p : Path} {nb : LocalPath}
    (hw : Host.wfFull du p.host) (hnb : nb.wf) (hun : unamb nb.render)
    (hst : startOK p.host nb) :
    Path.add_remote du p nb = some ⟨p.host, nb⟩ := by
  have hst' : p.host = Host.localhost ∨ nb.root ≠ 0 ∨
      (nb.root = 0 ∧ ∃ nm ns, nb.names = ('~' :: nm) :: ns) := by
    rcases hst with h | h | ⟨h0, hh⟩
    · exact Or.inl h
    · exact Or.inr (Or.inl h)
    · refine Or.inr (Or.inr ⟨h0, ?_⟩)
      rcases hnn : nb.names with _ | ⟨n, ns⟩
      · rw [hnn] at hh; simp at hh
      · rcases n with _ | ⟨c, nm⟩
        · rw [hnn] at hh; simp at hh
        · rw [hnn] at hh
          simp only [List.head?_cons, Option.some_bind, Option.some.injEq] at hh
          exact ⟨nm, ns, by rw [hh]⟩
  unfold Path.add_remote Path.ofString
  rw [add_remote_reparse hw hnb hun hst', Option.map_some']

/-- `Path._add_remote` on an absolute bare path: no ambiguity condition is
needed for a remote host (the re-parse always cuts at the host boundary), and
for the local host only freedom from `:~` is needed, since a leading slash
already defeats the `:/` branch. -/
theorem add_remote_abs {du : Str} {p : Path} {nb : LocalPath}
    (hw : Host.wfFull du p.host) (hnb : nb.wf) (hroot : nb.root ≠ 0)
    (hloc : p.host = Host.localhost → containsSub [':', '~'] nb.render = false) :
    Path.add_remote du p nb = some ⟨p.host, nb⟩ := by
  unfold Path.add_remote Path.ofString
  rcases render_eq_slash hnb hroot with ⟨t, ht⟩
  rcases hph : p.host with _ | r
  · have h1 : ¬(containsSub [':', '/'] nb.render = true ∧
        idxC ':' nb.render < idxC '/' nb.render) := by
      rintro ⟨-, hidx⟩
      rw [ht, idxC_cons_self] at hidx
      omega
    have h2 : ¬(containsSub [':', '~'] nb.render = true ∧
        idxC ':' nb.render < idxC '~' nb.render) := by
      rw [hloc hph]
      simp
    rw [show prefixStr du Host.localhost = [] from rfl, List.nil_append,
      split_local h1 h2, LocalPath.parse_render hnb, Option.map_some']
  · rw [hph] at hw
    have hw' : Remote.wfFull du r := hw
    rcases hw' with ⟨hhn, hu⟩
    have hA : '/' ∉ renderRemote du r :=
      renderRemote_no_slash (fun hc => (hhn '/' hc).2.2.1 rfl)
        (hu.symm.imp id (fun hz hc => (hz '/' hc).2.2.1 rfl))
    have hfs : from_str du (renderRemote du r) = some r :=
      from_str_renderRemote ⟨fun hc => (hhn ':' hc).1 rfl, fun hc => (hhn '@' hc).2.1 rfl⟩
        (hu.symm.imp id
          (fun hz => ⟨fun hc => (hz ':' hc).1 rfl, fun hc => (hz '@' hc).2.1 rfl⟩))
    rw [show prefixStr du (Host.remote r) = renderRemote du r ++ [':'] from rfl, ht]
    rw [show renderRemote du r ++ [':'] ++ '/' :: t =
      renderRemote du r ++ ':' :: '/' :: t by simp]
    rw [split_remote_slash t hA hfs, ← ht, LocalPath.parse_render hnb, Option.map_some']

/-! ## Claim theorems -/

/-- C1: for every combined path string accepted by the grammar, parsing with
`split`, building the `Path`, rendering its string form (`Path.__str__`: host
prefix concatenated with the bare path string) and parsing that string again
yields a `Path` equal to the first — for paths whose bare-path string (its
segments joined) contains no literal `:/` or `:~` sequence. -/
theorem c1_round_trip (du p : Str) (q : Path) (hs : Path.ofString du p = some q)
    (hun : unamb q.path.render) : Path.ofString du (Path.str du q) = some q := by
  unfold Path.ofString at hs ⊢
  rcases hsp : split du p with _ | ⟨h, bp⟩
  · rw [hsp] at hs; cases hs
  · rw [hsp, Option.map_some'] at hs
    rcases Option.some.inj hs with rfl
    have hq : Path.str du (⟨h, bp⟩ : Path) = prefixStr du h ++ bp.render := rfl
    rw [hq, split_round_trip hsp hun, Option.map_some']

/-- Witness for C1 at the concrete input `me@x:/a/b`. -/
theorem c1_round_trip_witness :
    Path.ofString "user".data
        (Path.str "user".data
          ⟨Host.remote ⟨"x".data, "me".data, 22⟩, ⟨1, ["a".data, "b".data]⟩⟩) =
      some ⟨Host.remote ⟨"x".data, "me".data, 22⟩, ⟨1, ["a".data, "b".data]⟩⟩ :=
  c1_round_trip "user".data "me@x:/a/b".data
    ⟨Host.remote ⟨"x".data, "me".data, 22⟩, ⟨1, ["a".data, "b".data]⟩⟩
    (by decide) (by decide)

/-- C2 counterexample: `relative_to` between two same-host remote paths
(`h:/a/b` relative to `h:/a`) produces a path whose host is local — the
relative bare result `b` is re-parsed as `h:b`, which has no host marker, so
the original `Remote` host is not re-attached. -/
theorem c2_counterexample :
    Path.relative_to "user".data
        ⟨Host.remote ⟨['h'], "user".data, 22⟩, ⟨1, [['a'], ['b']]⟩⟩
        ⟨Host.remote ⟨['h'], "user".data, 22⟩, ⟨1, [['a']]⟩⟩ =
      .ok ⟨Host.localhost, ⟨0, [['h', ':', 'b']]⟩⟩ ∧
      Host.localhost ≠ Host.remote ⟨['h'], "user".data, 22⟩ :=
  ⟨rfl, by decide⟩

/-- C2 (amended): for every `Path` whose host is well formed
(descriptor fields free of `:`, `@`, `/`, `~`, or default user) and whose bare
path is well formed, each of `parent`, `with_name`, `with_stem`,
`with_suffix`, join and (same-host) `relative_to` returns a `Path` carrying
the original host, provided the resulting bare path is well formed, its
string form contains no `:/` or `:~` sequence and, for a remote host, begins
with `/` or `~`.  (Without the proviso the host is not preserved: see the
counterexample, where `relative_to` on a remote path yields a local path.) -/
theorem c2_host_preserved_amended (du : Str) (p : Path)
    (hw : Host.wfFull du p.host) :
    (p.path.parent.wf → unamb p.path.parent.render → startOK p.host p.path.parent →
      Path.parent du p = some ⟨p.host, p.path.parent⟩) ∧
    (∀ n nb, p.path.with_name n = some nb → nb.wf → unamb nb.render →
      startOK p.host nb → Path.with_name du p n = some ⟨p.host, nb⟩) ∧
    (∀ st nb, p.path.with_stem st = some nb → nb.wf → unamb nb.render →
      startOK p.host nb → Path.with_stem du p st = some ⟨p.host, nb⟩) ∧
    (∀ sfx nb, p.path.with_suffix sfx = some nb → nb.wf → unamb nb.render →
      startOK p.host nb → Path.with_suffix du p sfx = some ⟨p.host, nb⟩) ∧
    (∀ q : Path, q.host = p.host → (p.path.join q.path).wf →
      unamb (p.path.join q.path).render → startOK p.host (p.path.join q.path) →
      Path.truediv du p (.ofPath q) = .ok ⟨p.host, p.path.join q.path⟩) ∧
    (∀ q : Path, q.host = p.host →
      ∀ nb, LocalPath.relative_to p.path q.path = some nb → nb.wf →
      unamb nb.render → startOK p.host nb →
      Path.relative_to du p q = .ok ⟨p.host, nb⟩) := by
  refine ⟨?_, ?_, ?_, ?_, ?_, ?_⟩
  · intro h1 h2 h3
    exact add_remote_ok hw h1 h2 h3
  · intro n nb hop h1 h2 h3
    unfold Path.with_name
    rw [hop, Option.some_bind]
    exact add_remote_ok hw h1 h2 h3
  · intro st nb hop h1 h2 h3
    unfold Path.with_stem
    rw [hop, Option.some_bind]
    exact add_remote_ok hw h1 h2 h3
  · intro sfx nb hop h1 h2 h3
    unfold Path.with_suffix
    rw [hop, Option.some_bind]
    exact add_remote_ok hw h1 h2 h3
  · intro q hq h1 h2 h3
    show (if p.host ≠ q.host then Except.error PErr.joinHostMismatch
      else
        match Path.add_remote du p (p.path.join q.path) with
        | some res => Except.ok res
        | none => Except.error PErr.invalidValue) =
      Except.ok ⟨p.host, p.path.join q.path⟩
    rw [if_neg (by rw [hq]; simp), add_remote_ok hw h1 h2 h3]
  · intro q hq nb hop h1 h2 h3
    unfold Path.relative_to
    rw [if_neg (by rw [hq]; simp), hop]
    show (match Path.add_remote du p nb with
      | some res => Except.ok res
      | none => Except.error PErr.invalidValue) = Except.ok ⟨p.host, nb⟩
    rw [add_remote_ok hw h1 h2 h3]

/-- Witness for the amended C2: `parent` on `me@x:/a/b` keeps the remote host. -/
theorem c2_host_preserved_amended_witness :
    Path.parent "user".data
        ⟨Host.remote ⟨"x".data, "me".data, 22⟩, ⟨1, ["a".data, "b".data]⟩⟩ =
      some ⟨Host.remote ⟨"x".data, "me".data, 22⟩, ⟨1, ["a".data]⟩⟩ := by
  have h := (c2_host_preserved_amended "user".data
    ⟨Host.remote ⟨"x".data, "me".data, 22⟩, ⟨1, ["a".data, "b".data]⟩⟩
    (by decide)).1 (by decide) (by decide) (by decide)
  exact h

/-- C3 counterexample: in `a:b/c` a colon appears strictly before the first
slash — the spec's stated disambiguation condition — yet `split` treats the
whole string as a local bare path, because the implementation additionally
requires a literal `:/` (or `:~`) substring. -/
theorem c3_counterexample :
    specColonBeforeMarker "a:b/c".data ∧
      split "user".data "a:b/c".data =
        some (Host.localhost, LocalPath.parse "a:b/c".data) := by
  exact ⟨by decide, by decide⟩

/-- C3 (amended): `split` yields a Remote host iff the string contains a
literal `:/` whose first colon precedes the first slash or, failing that, a
literal `:~` whose first colon precedes the first tilde; in the remote case
the host descriptor is the text before the first such `:/` (resp. `:~`)
occurrence and the bare path restarts at the marker character; otherwise the
whole string, colons included, becomes the local bare path (subject to the
usual pathlib normalization of `.` segments and repeated slashes). -/
theorem c3_split_characterization (du s : Str) :
    (∀ h bp, split du s = some (h, bp) → (h.is_remote = true ↔ codeRemoteCond s)) ∧
    (¬codeRemoteCond s → split du s = some (Host.localhost, LocalPath.parse s)) ∧
    (∀ desc rest, (containsSub [':', '/'] s = true ∧ idxC ':' s < idxC '/' s) →
      splitOnce [':', '/'] s = some (desc, rest) →
      split du s = (from_str du desc).map
        (fun r => (Host.remote r, LocalPath.parse ('/' :: rest)))) ∧
    (∀ desc rest, ¬(containsSub [':', '/'] s = true ∧ idxC ':' s < idxC '/' s) →
      (containsSub [':', '~'] s = true ∧ idxC ':' s < idxC '~' s) →
      splitOnce [':', '~'] s = some (desc, rest) →
      split du s = (from_str du desc).map
        (fun r => (Host.remote r, LocalPath.parse ('~' :: rest)))) := by
  refine ⟨?_, ?_, ?_, ?_⟩
  · intro h bp hs
    unfold split at hs
    by_cases hg1 : containsSub [':', '/'] s = true ∧ idxC ':' s < idxC '/' s
    · rw [if_pos hg1] at hs
      rcases splitOnce_some_of_contains hg1.1 (by simp) with ⟨desc, rest, hso⟩
      rw [hso, Option.some_bind] at hs
      cases hfs : from_str du desc with
      | none => rw [hfs] at hs; cases hs
      | some r =>
        rw [hfs, Option.map_some'] at hs
        obtain ⟨hh, hbp⟩ := Prod.mk.inj (Option.some.inj hs)
        rw [← hh]
        simp only [Host.is_remote, true_iff]
        exact Or.inl hg1
    · rw [if_neg hg1] at hs
      by_cases hg2 : containsSub [':', '~'] s = true ∧ idxC ':' s < idxC '~' s
      · rw [if_pos hg2] at hs
        rcases splitOnce_some_of_contains hg2.1 (by simp) with ⟨desc, rest, hso⟩
        rw [hso, Option.some_bind] at hs
        cases hfs : from_str du desc with
        | none => rw [hfs] at hs; cases hs
        | some r =>
          rw [hfs, Option.map_some'] at hs
          obtain ⟨hh, hbp⟩ := Prod.mk.inj (Option.some.inj hs)
          rw [← hh]
          simp only [Host.is_remote, true_iff]
          exact Or.inr ⟨hg1, hg2⟩
      · rw [if_neg hg2] at hs
        obtain ⟨hh, hbp⟩ := Prod.mk.inj (Option.some.inj hs)
        rw [← hh]
        simp only [Host.is_remote, Bool.false_eq_true, false_iff]
        intro hcond
        rcases hcond with hz | hz
        · exact hg1 hz
        · exact hg2 hz.2
  · intro hcond
    have hg1 : ¬(containsSub [':', '/'] s = true ∧ idxC ':' s < idxC '/' s) :=
      fun hz => hcond (Or.inl hz)
    have hg2 : ¬(containsSub [':', '~'] s = true ∧ idxC ':' s < idxC '~' s) :=
      fun hz => hcond (Or.inr ⟨hg1, hz⟩)
    exact split_local hg1 hg2
  · intro desc rest hg1 hso
    unfold split
    rw [if_pos hg1, hso, Option.some_bind]
  · intro desc rest hg1 hg2 hso
    unfold split
    rw [if_neg hg1, if_pos hg2, hso, Option.some_bind]

/-- Witness for the amended C3 at `h:/a` (remote) and `a:b/c` (local). -/
theorem c3_split_characterization_witness :
    ((Host.remote ⟨['h'], "user".data, 22⟩).is_remote = true ↔
      codeRemoteCond "h:/a".data) ∧
    split "user".data "a:b/c".data =
      some (Host.localhost, LocalPath.parse "a:b/c".data) :=
  ⟨(c3_split_characterization "user".data "h:/a".data).1
      (Host.remote ⟨['h'], "user".data, 22⟩) (LocalPath.parse ('/' :: ['a'])) (by decide),
    (c3_split_characterization "user".data "a:b/c".data).2.1 (by decide)⟩

/-- C5: `me@there:60:~` parses to `Remote(there, me, 60)` with bare path `~`,
and `me@there:/fo:o/bar` parses to `Remote(there, me, 22)` (default port)
with bare path `/fo:o/bar` — the colon inside a segment is not a delimiter. -/
theorem c5_concrete_parses (du : Str) :
    split du "me@there:60:~".data =
      some (Host.remote ⟨"there".data, "me".data, 60⟩, ⟨0, [['~']]⟩) ∧
    split du "me@there:/fo:o/bar".data =
      some (Host.remote ⟨"there".data, "me".data, 22⟩,
        ⟨1, ["fo:o".data, "bar".data]⟩) := by
  constructor
  · unfold split
    rw [if_neg (by decide), if_pos (by decide),
      show splitOnce [':', '~'] "me@there:60:~".data =
        some ("me@there:60".data, []) from by decide, Option.some_bind]
    unfold from_str
    rw [if_pos (by decide), if_pos (by decide),
      show splitOnce [':'] "me@there:60".data =
        some ("me@there".data, "60".data) from by decide, Option.some_bind,
      show pyInt "60".data = some 60 from by decide, Option.some_bind]
    unfold from_str_user
    rw [if_pos (by decide), if_pos (by decide),
      show splitOnce ['@'] "me@there".data =
        some ("me".data, "there".data) from by decide]
    decide
  · unfold split
    rw [if_pos (by decide),
      show splitOnce [':', '/'] "me@there:/fo:o/bar".data =
        some ("me@there".data, "fo:o/bar".data) from by decide, Option.some_bind]
    unfold from_str
    rw [if_neg (by decide)]
    unfold from_str_user
    rw [if_pos (by decide), if_pos (by decide),
      show splitOnce ['@'] "me@there".data =
        some ("me".data, "there".data) from by decide]
    decide

/-- C9 counterexample: the grammar accepts `:/foo`, producing a Remote host
whose hostname is the empty string. -/
theorem c9_counterexample :
    split "user".data ":/foo".data =
      some (Host.remote ⟨[], "user".data, 22⟩, ⟨1, ["foo".data]⟩) ∧
      (⟨[], "user".data, 22⟩ : Remote).hostname = [] :=
  ⟨by decide, rfl⟩

/-- C9 (amended): every Remote host produced by the address grammar has a
hostname containing neither `:` nor `@`; the hostname may however be empty
(the grammar accepts, e.g., `:/foo`). -/
theorem c9_hostname_amended (du p : Str) (r : Remote) (bp : LocalPath)
    (hs : split du p = some (Host.remote r, bp)) :
    ':' ∉ r.hostname ∧ '@' ∉ r.hostname := by
  unfold split at hs
  by_cases hg1 : containsSub [':', '/'] p = true ∧ idxC ':' p < idxC '/' p
  · rw [if_pos hg1] at hs
    rcases splitOnce_some_of_contains hg1.1 (by simp) with ⟨desc, rest, hso⟩
    rw [hso, Option.some_bind] at hs
    cases hfs : from_str du desc with
    | none => rw [hfs] at hs; cases hs
    | some r' =>
      rw [hfs, Option.map_some'] at hs
      obtain ⟨hh, hbp⟩ := Prod.mk.inj (Option.some.inj hs)
      have hr : r' = r := by injection hh
      rcases from_str_fields hfs with ⟨_, hcol, hat, _⟩
      rw [← hr]
      exact ⟨hcol, hat⟩
  · rw [if_neg hg1] at hs
    by_cases hg2 : containsSub [':', '~'] p = true ∧ idxC ':' p < idxC '~' p
    · rw [if_pos hg2] at hs
      rcases splitOnce_some_of_contains hg2.1 (by simp) with ⟨desc, rest, hso⟩
      rw [hso, Option.some_bind] at hs
      cases hfs : from_str du desc with
      | none => rw [hfs] at hs; cases hs
      | some r' =>
        rw [hfs, Option.map_some'] at hs
        obtain ⟨hh, hbp⟩ := Prod.mk.inj (Option.some.inj hs)
        have hr : r' = r := by injection hh
        rcases from_str_fields hfs with ⟨_, hcol, hat, _⟩
        rw [← hr]
        exact ⟨hcol, hat⟩
    · rw [if_neg hg2] at hs
      obtain ⟨hh, hbp⟩ := Prod.mk.inj (Option.some.inj hs)
      cases hh

/-- Witness for the amended C9 at `h:/a`. -/
theorem c9_hostname_amended_witness :
    ':' ∉ (⟨['h'], "user".data, 22⟩ : Remote).hostname ∧
      '@' ∉ (⟨['h'], "user".data, 22⟩ : Remote).hostname :=
  c9_hostname_amended "user".data "h:/a".data ⟨['h'], "user".data, 22⟩
    (LocalPath.parse ('/' :: ['a'])) (by decide)

/-- C6: `relative_to` on Paths with differing hosts fails (the
`hosts must match` ValueError) while `is_relative_to` returns `false` without
failing; with equal hosts but bare paths not in a prefix relationship,
`relative_to` fails with the pathlib unrelated-paths ValueError. -/
theorem c6_relative_to_hosts (du : Str) (p q : Path) :
    (p.host ≠ q.host →
      Path.relative_to du p q = .error .hostsMustMatch ∧
        Path.is_relative_to p q = false) ∧
    (p.host = q.host → LocalPath.relative_to p.path q.path = none →
      Path.relative_to du p q = .error .notInSubpath) := by
  constructor
  · intro hne
    constructor
    · unfold Path.relative_to
      rw [if_pos hne]
    · unfold Path.is_relative_to
      rw [if_neg hne]
  · intro heq hnone
    unfold Path.relative_to
    rw [if_neg (by rw [heq]; simp), hnone]

/-- Witness for C6: a remote and a local path with the same bare path. -/
theorem c6_relative_to_hosts_witness :
    Path.relative_to "user".data
        ⟨Host.remote ⟨['h'], "user".data, 22⟩, ⟨1, [['a']]⟩⟩
        ⟨Host.localhost, ⟨1, [['a']]⟩⟩ = .error .hostsMustMatch ∧
      Path.is_relative_to ⟨Host.remote ⟨['h'], "user".data, 22⟩, ⟨1, [['a']]⟩⟩
        ⟨Host.localhost, ⟨1, [['a']]⟩⟩ = false :=
  (c6_relative_to_hosts "user".data _ _).1 (by decide)

/-- C7: joining two Paths with different (in particular different non-default
remote) hosts fails with the join host-mismatch ValueError; with a common
host, joining an absolute right bare path discards the left bare path
entirely (last-absolute-wins) — stated both at the `pathlib` join level
(unconditional) and at the `Path` level, where re-attaching a well-formed
host also preserves it. -/
theorem c7_join (du : Str) (p q : Path) :
    (∀ r1 r2, p.host = Host.remote r1 → q.host = Host.remote r2 → r1 ≠ r2 →
      Path.truediv du p (.ofPath q) = .error .joinHostMismatch) ∧
    (q.path.root ≠ 0 → p.path.join q.path = q.path) ∧
    (q.host = p.host → q.path.root ≠ 0 → Host.wfFull du p.host → q.path.wf →
      (p.host = Host.localhost → containsSub [':', '~'] q.path.render = false) →
      Path.truediv du p (.ofPath q) = .ok ⟨p.host, q.path⟩) := by
  refine ⟨?_, ?_, ?_⟩
  · intro r1 r2 h1 h2 hne
    have hhost : p.host ≠ q.host := by
      rw [h1, h2]
      intro hc
      injection hc with hc'
      exact hne hc'
    show (if p.host ≠ q.host then Except.error PErr.joinHostMismatch
      else
        match Path.add_remote du p (p.path.join q.path) with
        | some res => Except.ok res
        | none => Except.error PErr.invalidValue) = Except.error PErr.joinHostMismatch
    rw [if_pos hhost]
  · intro hroot
    unfold LocalPath.join
    rw [if_pos hroot]
  · intro hq hroot hw hwf hloc
    have hjoin : p.path.join q.path = q.path := by
      unfold LocalPath.join
      rw [if_pos hroot]
    show (if p.host ≠ q.host then Except.error PErr.joinHostMismatch
      else
        match Path.add_remote du p (p.path.join q.path) with
        | some res => Except.ok res
        | none => Except.error PErr.invalidValue) = Except.ok ⟨p.host, q.path⟩
    rw [if_neg (by rw [hq]; simp), hjoin, add_remote_abs hw hwf hroot hloc]

/-- Witness for C7: differing remote hosts fail; same host with absolute
right operand keeps the host and discards the left bare path. -/
theorem c7_join_witness :
    Path.truediv "user".data
        ⟨Host.remote ⟨['h'], "user".data, 22⟩, ⟨1, [['a']]⟩⟩
        (.ofPath ⟨Host.remote ⟨['k'], "user".data, 22⟩, ⟨1, [['b']]⟩⟩) =
      .error .joinHostMismatch ∧
    Path.truediv "user".data
        ⟨Host.remote ⟨['h'], "user".data, 22⟩, ⟨1, [['a']]⟩⟩
        (.ofPath ⟨Host.remote ⟨['h'], "user".data, 22⟩, ⟨1, [['b']]⟩⟩) =
      .ok ⟨Host.remote ⟨['h'], "user".data, 22⟩, ⟨1, [['b']]⟩⟩ :=
  ⟨(c7_join "user".data _ _).1 _ _ rfl rfl (by decide),
    (c7_join "user".data _ _).2.2 rfl (by decide) (by decide) (by decide) (by decide)⟩

/-- The table loop of `_wrap_exception` leaves the initial exception untouched
when no pattern matches. -/
theorem applyTable_foldl_all_false {t : List (Str × ExcKind)} {se : Str}
    (h : ∀ kv ∈ t, containsSub kv.1 se = false) (init : Raised) :
    t.foldl (fun acc kv =>
      if containsSub kv.1 se then .classified kv.2 se else acc) init = init := by
  induction t generalizing init with
  | nil => rfl
  | cons kv rest ih =>
    rw [List.foldl_cons, if_neg (by simp [h kv (List.mem_cons_self _ _)])]
    exact ih (fun x hm => h x (List.mem_cons_of_mem _ hm)) init

/-- The table loop of `_wrap_exception` raises the classification of the last
matching entry. -/
theorem applyTable_last_match {t1 t2 : List (Str × ExcKind)} {kv : Str × ExcKind}
    {rc : Int} {se : Str} (hP : containsSub kv.1 se = true)
    (h2 : ∀ x ∈ t2, containsSub x.1 se = false) :
    applyTable (t1 ++ kv :: t2) rc se = .classified kv.2 se := by
  unfold applyTable
  rw [List.foldl_append, List.foldl_cons, if_pos hP]
  exact applyTable_foldl_all_false h2 _

/-- Any list with a matching entry decomposes around its last matching entry. -/
theorem exists_last_match {t : List (Str × ExcKind)} {se : Str}
    (h : ∃ kv ∈ t, containsSub kv.1 se = true) :
    ∃ t1 kv t2, t = t1 ++ kv :: t2 ∧ containsSub kv.1 se = true ∧
      ∀ x ∈ t2, containsSub x.1 se = false := by
  induction t with
  | nil => rcases h with ⟨kv, hm, _⟩; cases hm
  | cons y ys ih =>
    by_cases hys : ∃ kv ∈ ys, containsSub kv.1 se = true
    · rcases ih hys with ⟨t1, kv, t2, heq, h1, h2⟩
      exact ⟨y :: t1, kv, t2, by rw [heq]; rfl, h1, h2⟩
    · have hy : containsSub y.1 se = true := by
        rcases h with ⟨kv, hm, hkv⟩
        rcases List.mem_cons.mp hm with hz | hz
        · rw [← hz]; exact hkv
        · exact absurd ⟨kv, hz, hkv⟩ hys
      have hall : ∀ x ∈ ys, containsSub x.1 se = false := by
        intro x hx
        by_contra hc
        exact hys ⟨x, hx, by simpa using hc⟩
      exact ⟨[], y, ys, rfl, hy, hall⟩

/-- Unfolding lemma for association-list lookup. -/
theorem lookupA_cons (kv : Str × ExcKind) (rest : List (Str × ExcKind)) (key : Str) :
    lookupA (kv :: rest) key =
      if kv.1 == key then some kv.2 else lookupA rest key := by
  unfold lookupA
  by_cases h : (kv.1 == key) = true
  · simp [List.find?, h]
  · simp only [List.find?]
    rw [show (kv.1 == key) = false by simp [Bool.eq_false_iff, h]]
    rw [if_neg (by simp [Bool.eq_false_iff, h])]

/-- A hit in the left part of an appended association list wins. -/
theorem lookupA_append_of_some {a : List (Str × ExcKind)} (b : List (Str × ExcKind))
    {key : Str} {w : ExcKind} (h : lookupA a key = some w) :
    lookupA (a ++ b) key = some w := by
  induction a with
  | nil => simp [lookupA] at h
  | cons kv rest ih =>
    rw [lookupA_cons] at h
    rw [List.cons_append, lookupA_cons]
    by_cases hk : (kv.1 == key) = true
    · rw [if_pos hk] at h ⊢
      exact h
    · rw [if_neg hk] at h ⊢
      exact ih h

/-- Lookup in a key-preserving value-rewriting map. -/
theorem lookupA_map_values (g : Str × ExcKind → ExcKind) (d : List (Str × ExcKind))
    (key : Str) :
    lookupA (d.map (fun kv => (kv.1, g kv))) key =
      (d.find? (fun kv => kv.1 == key)).map g := by
  induction d with
  | nil => rfl
  | cons kv rest ih =>
    rw [List.map_cons, lookupA_cons]
    by_cases hk : (kv.1 == key) = true
    · simp [List.find?, hk]
    · simp only [List.find?]
      rw [show (kv.1 == key) = false by simp [Bool.eq_false_iff, hk]]
      rw [if_neg (by simp [Bool.eq_false_iff, hk]), ih]

/-- The found entry satisfies the search predicate. -/
theorem find_pred {p : Str × ExcKind → Bool} {l : List (Str × ExcKind)}
    {a : Str × ExcKind} (h : l.find? p = some a) : p a = true := by
  induction l with
  | nil => simp [List.find?] at h
  | cons kv rest ih =>
    by_cases hk : p kv = true
    · simp only [List.find?, hk] at h
      rcases Option.some.inj h with rfl
      exact hk
    · simp only [List.find?] at h
      rw [show p kv = false by simpa using hk] at h
      exact ih h

/-- C4: when a remote command fails, `_wrap_exception` raises a classified
error whose pattern occurs as a substring of the captured stderr, chosen from
the default mapping merged with caller overrides (overrides take precedence
for matching keys); passing a single error kind classifies every failure as
that kind; and when no pattern matches, the raw process error with its exit
status and stderr propagates.  The final two conjuncts check the spec's two
worked examples. -/
theorem c4_error_classification (m : List (Str × ExcKind)) (rc : Int) (se : Str) :
    ((∃ kv ∈ dictMerge DEFAULT_BASH_EXCEPTIONS m, containsSub kv.1 se = true) →
      ∃ kv ∈ dictMerge DEFAULT_BASH_EXCEPTIONS m, containsSub kv.1 se = true ∧
        wrap_exception (.table m) rc se = .classified kv.2 se) ∧
    ((∀ kv ∈ dictMerge DEFAULT_BASH_EXCEPTIONS m, containsSub kv.1 se = false) →
      wrap_exception (.table m) rc se = .calledProcessError rc se) ∧
    (∀ k, wrap_exception (.single k) rc se = .classified k se) ∧
    (∀ key v, lookupA m key = some v →
      (lookupA DEFAULT_BASH_EXCEPTIONS key).isSome = true →
      lookupA (dictMerge DEFAULT_BASH_EXCEPTIONS m) key = some v) ∧
    (wrap_exception .noneE rc "No such file or directory".data =
      .classified .fileNotFoundError "No such file or directory".data) ∧
    (wrap_exception (.table [("Custom msg".data, .other "FooError".data)]) rc
        "Custom msg".data =
      .classified (.other "FooError".data) "Custom msg".data) := by
  refine ⟨?_, ?_, fun k => rfl, ?_, rfl, rfl⟩
  · intro h
    rcases exists_last_match h with ⟨t1, kv, t2, heq, h1, h2⟩
    refine ⟨kv, by rw [heq]; simp, h1, ?_⟩
    show applyTable (dictMerge DEFAULT_BASH_EXCEPTIONS m) rc se = _
    rw [heq]
    exact applyTable_last_match h1 h2
  · intro h
    show applyTable (dictMerge DEFAULT_BASH_EXCEPTIONS m) rc se = _
    unfold applyTable
    exact applyTable_foldl_all_false h _
  · intro key v hm hdef
    rcases Option.isSome_iff_exists.mp hdef with ⟨w, hw⟩
    rcases Option.map_eq_some'.mp hw with ⟨kv0, hfind, hval⟩
    have hkey : kv0.1 = key := by
      have := find_pred hfind
      simpa using this
    unfold dictMerge
    rw [lookupA_append_of_some _
      (by
        rw [lookupA_map_values (fun kv => (lookupA m kv.1).getD kv.2)
          DEFAULT_BASH_EXCEPTIONS key, hfind, Option.map_some'])]
    rw [hkey, hm]
    rfl

/-- Witness for C4: an empty override table and unmatched stderr propagate
the raw process error. -/
theorem c4_error_classification_witness :
    wrap_exception (.table []) 1 "nothing happened".data =
      .calledProcessError 1 "nothing happened".data :=
  (c4_error_classification [] 1 "nothing happened".data).2.1 (by decide)

/-- Inversion for `statOfVals`: success pins the mode and the first nine
decoded fields, in order. -/
theorem statOfVals_inv {mode : Int} {vals : List Int} {res : StatResult}
    (h : statOfVals mode vals = some res) :
    res.st_mode = mode ∧
      vals.take 9 = [res.st_ino, res.st_dev, res.st_nlink, res.st_uid, res.st_gid,
        res.st_size, res.st_atime, res.st_mtime, res.st_ctime] := by
  rcases vals with _ | ⟨i, vals⟩
  · simp [statOfVals] at h
  rcases vals with _ | ⟨d, vals⟩
  · simp [statOfVals] at h
  rcases vals with _ | ⟨nl, vals⟩
  · simp [statOfVals] at h
  rcases vals with _ | ⟨u, vals⟩
  · simp [statOfVals] at h
  rcases vals with _ | ⟨g, vals⟩
  · simp [statOfVals] at h
  rcases vals with _ | ⟨sz, vals⟩
  · simp [statOfVals] at h
  rcases vals with _ | ⟨a, vals⟩
  · simp [statOfVals] at h
  rcases vals with _ | ⟨mt, vals⟩
  · simp [statOfVals] at h
  rcases vals with _ | ⟨ct, vals⟩
  · simp [statOfVals] at h
  simp only [statOfVals, Option.some.injEq] at h
  rw [← h]
  exact ⟨rfl, by simp⟩

/-- C8: the remote `stat` output parser hex-decodes the first
whitespace-separated field as the mode and decimal-decodes the remaining
fields in order into a stat-result structure; in particular the spec's
simulated output decodes to mode `0o100644` with the listed fields. -/
theorem c8_stat_parse :
    (statParse "81a4 100 10 1 1000 1000 4096 1690000000 1690000001 1690000002".data =
      some ⟨0o100644, 100, 10, 1, 1000, 1000, 4096, 1690000000, 1690000001,
        1690000002⟩) ∧
    (∀ out res, statParse out = some res →
      ∃ modeHex vals, (wsSplit out).head? = some modeHex ∧
        pyIntHex modeHex = some res.st_mode ∧
        mapOption pyInt (wsSplit out).tail = some vals ∧ vals.length ≤ 15 ∧
        vals.take 9 = [res.st_ino, res.st_dev, res.st_nlink, res.st_uid, res.st_gid,
          res.st_size, res.st_atime, res.st_mtime, res.st_ctime]) := by
  constructor
  · decide
  · intro out res h
    unfold statParse at h
    rcases Option.bind_eq_some.mp h with ⟨modeHex, hhd, h2⟩
    rcases Option.bind_eq_some.mp h2 with ⟨mode, hhex, h3⟩
    rcases Option.bind_eq_some.mp h3 with ⟨vals, hmap, h4⟩
    by_cases hlen : vals.length ≤ 15
    · rw [if_pos hlen] at h4
      obtain ⟨hmode, htake⟩ := statOfVals_inv h4
      exact ⟨modeHex, vals, hhd, by rw [hhex, hmode], hmap, hlen, htake⟩
    · rw [if_neg hlen] at h4
      cases h4

/-- Witness for C8's inversion conjunct at the spec's simulated output. -/
theorem c8_stat_parse_witness :
    ∃ modeHex vals,
      (wsSplit "81a4 100 10 1 1000 1000 4096 1690000000 1690000001 1690000002".data).head?
          = some modeHex ∧
        pyIntHex modeHex = some (0o100644 : Int) ∧
        mapOption pyInt
            (wsSplit
              "81a4 100 10 1 1000 1000 4096 1690000000 1690000001 1690000002".data).tail
          = some vals ∧ vals.length ≤ 15 ∧
        vals.take 9 = [100, 10, 1, 1000, 1000, 4096, 1690000000, 1690000001,
          1690000002] :=
  (c8_stat_parse).2 "81a4 100 10 1 1000 1000 4096 1690000000 1690000001 1690000002".data
    ⟨0o100644, 100, 10, 1, 1000, 1000, 4096, 1690000000, 1690000001, 1690000002⟩
    (by decide)

/-- C10: on a remote path, `exists` runs exactly the command
`[[ -f <path> ]] || echo no` and reports existence iff the captured output
differs from the sentinel `no`; because the guard is the regular-file test
`-f`, a remote directory is reported as not existing (the modelled shell
prints the sentinel for it), whereas the local branch delegates to
`pathlib.Path.exists`, which reports directories as existing. -/
theorem c10_exists_command (run : Str → Str) (lEx : LocalPath → Bool) (p : Path) :
    (p.host.is_remote = true →
      Path.existsFn run lEx p =
        !(run ("[[ -f ".data ++ p.path.render ++ " ]] || echo no".data) ==
          "no".data)) ∧
    (p.host.is_remote = true →
      Path.existsFn (fun _ => bashTestFOutput .directory) lEx p = false) ∧
    (p.host.is_remote = false → Path.existsFn run lEx p = lEx p.path) ∧
    pathlibExists .directory = true := by
  refine ⟨?_, ?_, ?_, rfl⟩
  · intro hrem
    unfold Path.existsFn
    rw [if_pos hrem]
    rfl
  · intro hrem
    unfold Path.existsFn
    rw [if_pos hrem]
    exact (by decide : (!(bashTestFOutput FileKind.directory == "no".data)) = false)
  · intro hloc
    unfold Path.existsFn
    rw [if_neg (by simp [hloc])]

/-- Witness for C10: the modelled shell output for a directory makes the
remote existence test report false. -/
theorem c10_exists_command_witness :
    Path.existsFn (fun _ => bashTestFOutput .directory) (fun _ => true)
        ⟨Host.remote ⟨['h'], "user".data, 22⟩, ⟨1, [['a']]⟩⟩ = false :=
  (c10_exists_command (fun _ => bashTestFOutput .directory) (fun _ => true)
    ⟨Host.remote ⟨['h'], "user".data, 22⟩, ⟨1, [['a']]⟩⟩).2.1 rfl

end Remotelib
